import Mathlib

/-!
# Verification of the RAG chatbot retrieval core

Shallow embedding of the repository's retrieval pipeline:

* `src/utils/document_processor.py` — `DocumentProcessor.clean_text` and
  `DocumentProcessor.chunk_text` (the chunking loop), including Python's
  slicing and `str.rfind` semantics for negative indices;
* `src/vector_store/simple_vector_store.py` — `SimpleVectorStore.add`,
  `SimpleVectorStore.search` (brute-force cosine similarity with
  `np.argsort`-style ranking) and `SimpleVectorStore.load`;
* `src/agent/graph.py` — the `retrieve → generate → log_state` pipeline and
  the `_retrieve_documents` node's error handling.

Strings are modelled as `List Char`, the chunker cursor as `Int` (Python
integers go negative in this loop), machine floats as `ℝ`.
-/

/-! ## Python string primitives -/

/-- Python whitespace characters relevant to `str.strip` and `re`'s `\s`
(ASCII fragment; the inputs we reason about contain no other whitespace). -/
def isSpaceChar (c : Char) : Bool :=
  c == ' ' || c == '\t' || c == '\n' || c == '\r' || c == '\x0b' || c == '\x0c'

/-- Normalize a Python slice endpoint `i` for a sequence of length `n`:
negative indices count from the end, then clamp into `[0, n]`. -/
def pyIdx (n : Nat) (i : Int) : Nat :=
  if i < 0 then ((n : Int) + i).toNat else min i.toNat n

/-- Python `t[a:b]` on a list of characters. -/
def pySlice (t : List Char) (a b : Int) : List Char :=
  (t.take (pyIdx t.length b)).drop (pyIdx t.length a)

/-- Python `t.rfind(c, a, b)`: highest index `k` with normalized
`a ≤ k < b` and `t[k] = c`, or `-1` when there is none. -/
def pyRfind (t : List Char) (c : Char) (a b : Int) : Int :=
  let i := pyIdx t.length a
  let j := pyIdx t.length b
  match (List.range j).reverse.find? (fun k => decide (i ≤ k) && (t.getD k (Char.ofNat 0) == c)) with
  | some k => (k : Int)
  | none => -1

/-- Python `t.strip()`: drop whitespace from both ends. -/
def pyStrip (t : List Char) : List Char :=
  ((t.dropWhile isSpaceChar).reverse.dropWhile isSpaceChar).reverse

/-! ## `DocumentProcessor.clean_text`

`re.sub(r'\s+', ' ', text)` replaces every maximal whitespace run by a
single `' '`; we realize it as mapping whitespace to `' '` followed by
collapsing runs of `' '`, then `strip`. -/

/-- Collapse each run of consecutive `' '` to a single `' '`. -/
def squeezeSpaces : List Char → List Char
  | [] => []
  | [c] => [c]
  | a :: b :: rest =>
    if a == ' ' && b == ' ' then squeezeSpaces (b :: rest)
    else a :: squeezeSpaces (b :: rest)

/-- `DocumentProcessor.clean_text`. -/
def cleanText (t : List Char) : List Char :=
  pyStrip (squeezeSpaces (t.map (fun c => if isSpaceChar c then ' ' else c)))

/-! ## `DocumentProcessor.chunk_text` -/

/-- One emitted chunk record (`content`, `chunk_index`, `start_char`,
`end_char`), as appended by `chunk_text`. -/
structure Chunk where
  content : List Char
  chunk_index : Nat
  start_char : Int
  end_char : Int
deriving DecidableEq, Repr, Inhabited

/-- The window-end computation of one `chunk_text` iteration: tentative
`end = start + chunk_size`; when `end < len(text)`, snap back to
`text.rfind(' ', start, end)` if that space is strictly after `start`. -/
def chunkEnd (cs : Int) (t : List Char) (start : Int) : Int :=
  let e0 := start + cs
  if e0 < (t.length : Int) then
    let last_space := pyRfind t ' ' start e0
    if last_space > start then last_space else e0
  else e0

/-- One iteration of the `while start < len(text)` loop body of
`chunk_text`: strips the window `[start, chunkEnd)`, and returns the
(possibly dropped) chunk together with the next cursor value
(`end - chunk_overlap` when `end < len(text)`, else `end`). -/
def chunkIter (cs ov : Int) (t : List Char) (start : Int) (idx : Nat) :
    Option Chunk × Int :=
  let e := chunkEnd cs t start
  let chunk := pyStrip (pySlice t start e)
  let nextStart := if e < (t.length : Int) then e - ov else e
  (if chunk.isEmpty then none else some ⟨chunk, idx, start, e⟩, nextStart)

/-- The chunking loop, fuel-indexed since the source loop need not
terminate: `none` means the loop did not finish within `fuel` iterations;
`some l` is the list of emitted chunks. `idx` is the running
`chunk_index` (only incremented when a chunk is emitted). -/
def chunkLoopF (cs ov : Int) (t : List Char) : Nat → Int → Nat → Option (List Chunk)
  | 0, start, _ => if start < (t.length : Int) then none else some []
  | fuel + 1, start, idx =>
    if start < (t.length : Int) then
      match chunkIter cs ov t start idx with
      | (none, s') => chunkLoopF cs ov t fuel s' idx
      | (some c, s') => (chunkLoopF cs ov t fuel s' (idx + 1)).map (fun rest => c :: rest)
    else some []

/-- `DocumentProcessor.chunk_text`: clean the text, then run the
windowing loop from cursor 0. -/
def chunkText (cs ov : Int) (text : List Char) (fuel : Nat) : Option (List Chunk) :=
  chunkLoopF cs ov (cleanText text) fuel 0 0

-- sanity checks against hand-executions of the Python source
example : cleanText "  ab\t\n cd  ".toList = "ab cd".toList := by decide
example : chunkText 10 2 "abcdefgh ijkl".toList 5 =
    some [⟨"abcdefgh".toList, 0, 0, 8⟩, ⟨"gh ijkl".toList, 1, 6, 16⟩] := by decide
example : chunkText 1 0 "a b".toList 5 =
    some [⟨"a".toList, 0, 0, 1⟩, ⟨"b".toList, 1, 2, 3⟩] := by decide
example : chunkText 5 2 "a bcdefgh".toList 9 =
    some [⟨"a".toList, 0, 0, 1⟩, ⟨"bcdef".toList, 1, 2, 7⟩,
      ⟨"efgh".toList, 2, 5, 10⟩] := by decide
example : chunkText 5 1 "a bcdefghij".toList 40 = none := by decide

/-! ## Properties of cleaned text -/

/-- No two consecutive characters are both `' '`. -/
def NoAdjSpaces (t : List Char) : Prop :=
  List.Chain' (fun a b => a = ' ' → b ≠ ' ') t

instance : DecidablePred NoAdjSpaces := fun t =>
  List.decidableChain' t

/-- The postcondition of `clean_text`: the only whitespace character is
`' '`, runs of spaces have length one, and there is no leading or
trailing space. -/
def Cleaned (t : List Char) : Prop :=
  (∀ c ∈ t, isSpaceChar c = true → c = ' ') ∧ NoAdjSpaces t ∧
    t.head? ≠ some ' ' ∧ t.getLast? ≠ some ' '

instance : DecidablePred Cleaned := fun t => by
  unfold Cleaned; infer_instance

theorem head?_squeezeSpaces (x : Char) (xs : List Char) :
    (squeezeSpaces (x :: xs)).head? = some x := by
  induction xs generalizing x with
  | nil => rfl
  | cons b rest ih =>
    by_cases h : x == ' ' && b == ' '
    · have hx : x = ' ' := by
        have := (Bool.and_eq_true _ _).mp h
        exact eq_of_beq this.1
      have hb : b = ' ' := by
        have := (Bool.and_eq_true _ _).mp h
        exact eq_of_beq this.2
      rw [squeezeSpaces, if_pos h, ih b, hx, hb]
    · rw [squeezeSpaces, if_neg h]
      rfl

theorem noAdjSpaces_squeezeSpaces (l : List Char) :
    NoAdjSpaces (squeezeSpaces l) := by
  unfold NoAdjSpaces
  induction l with
  | nil => exact List.chain'_nil
  | cons a rest ih =>
    cases rest with
    | nil => exact List.chain'_singleton a
    | cons b rest2 =>
      by_cases h : a == ' ' && b == ' '
      · rw [squeezeSpaces, if_pos h]; exact ih
      · rw [squeezeSpaces, if_neg h]
        refine List.chain'_cons'.mpr ⟨?_, ih⟩
        intro y hy ha
        rw [head?_squeezeSpaces b rest2] at hy
        intro hb
        apply h
        simp only [Option.mem_def, Option.some.injEq] at hy
        subst hy
        rw [ha, hb]
        rfl

theorem mem_squeezeSpaces {c : Char} {l : List Char} :
    c ∈ squeezeSpaces l → c ∈ l := by
  induction l with
  | nil => intro h; exact absurd h (List.not_mem_nil c)
  | cons a rest ih =>
    cases rest with
    | nil => intro h; exact h
    | cons b rest2 =>
      by_cases h : a == ' ' && b == ' '
      · rw [squeezeSpaces, if_pos h]
        intro hc; exact List.mem_cons_of_mem a (ih hc)
      · rw [squeezeSpaces, if_neg h]
        intro hc
        rcases List.mem_cons.mp hc with h1 | h2
        · exact h1 ▸ List.mem_cons_self a _
        · exact List.mem_cons_of_mem a (ih h2)

theorem head?_dropWhile_not {p : Char → Bool} {l : List Char} {a : Char}
    (h : (l.dropWhile p).head? = some a) : p a = false := by
  induction l with
  | nil => simp [List.dropWhile] at h
  | cons c cs ih =>
    rw [List.dropWhile_cons] at h
    by_cases hc : p c
    · rw [if_pos hc] at h; exact ih h
    · rw [if_neg hc] at h
      simp only [List.head?_cons, Option.some.injEq] at h
      subst h
      exact Bool.not_eq_true _ ▸ hc

theorem mem_pyStrip {c : Char} {l : List Char} (h : c ∈ pyStrip l) : c ∈ l := by
  unfold pyStrip at h
  rw [List.mem_reverse] at h
  have h1 := (List.dropWhile_sublist isSpaceChar).mem h
  rw [List.mem_reverse] at h1
  exact (List.dropWhile_sublist isSpaceChar).mem h1

theorem getLast?_pyStrip (l : List Char) : pyStrip l ≠ [] →
    ∃ a, (pyStrip l).getLast? = some a ∧ isSpaceChar a = false := by
  intro hne
  unfold pyStrip at hne ⊢
  rw [List.getLast?_reverse]
  set B := ((l.dropWhile isSpaceChar).reverse.dropWhile isSpaceChar) with hB
  have hBne : B ≠ [] := by
    intro h; apply hne; rw [h]; rfl
  cases hB2 : B.head? with
  | none => exact absurd (List.head?_eq_none_iff.mp hB2) hBne
  | some a =>
    exact ⟨a, rfl, head?_dropWhile_not (hB ▸ hB2)⟩

theorem head?_pyStrip (l : List Char) : pyStrip l ≠ [] →
    ∃ a, (pyStrip l).head? = some a ∧ isSpaceChar a = false := by
  intro hne
  unfold pyStrip at hne ⊢
  rw [List.head?_reverse]
  set A := l.dropWhile isSpaceChar with hA
  set B := A.reverse.dropWhile isSpaceChar with hB
  have hBne : B ≠ [] := by
    intro h; apply hne; rw [h]; rfl
  have hsplit : A.reverse = A.reverse.takeWhile isSpaceChar ++ B :=
    (List.takeWhile_append_dropWhile isSpaceChar A.reverse).symm
  have hlast : B.getLast? = A.reverse.getLast? := by
    conv_rhs => rw [hsplit]
    rw [List.getLast?_append]
    cases hBL : B.getLast? with
    | none => exact absurd (List.getLast?_eq_none_iff.mp hBL) hBne
    | some a => rfl
  rw [hlast, List.getLast?_reverse]
  cases hA2 : A.head? with
  | none =>
    exfalso
    apply hBne
    rw [hB, List.head?_eq_none_iff.mp hA2]
    rfl
  | some a =>
    exact ⟨a, rfl, head?_dropWhile_not (hA ▸ hA2)⟩

theorem noAdjSpaces_reverse {l : List Char} (h : NoAdjSpaces l) :
    NoAdjSpaces l.reverse := by
  unfold NoAdjSpaces at h ⊢
  rw [List.chain'_reverse]
  exact h.imp (fun a b hab hb ha => hab ha hb)

theorem noAdjSpaces_pyStrip {l : List Char} (h : NoAdjSpaces l) :
    NoAdjSpaces (pyStrip l) := by
  unfold pyStrip
  apply noAdjSpaces_reverse
  have h1 : NoAdjSpaces (l.dropWhile isSpaceChar) :=
    List.Chain'.suffix h (List.dropWhile_suffix _)
  have h2 : NoAdjSpaces (l.dropWhile isSpaceChar).reverse := noAdjSpaces_reverse h1
  exact List.Chain'.suffix h2 (List.dropWhile_suffix _)

theorem cleanText_cleaned (t : List Char) : Cleaned (cleanText t) := by
  refine ⟨?_, ?_, ?_, ?_⟩
  · intro c hc hsp
    have h1 := mem_squeezeSpaces (mem_pyStrip hc)
    rcases List.mem_map.mp h1 with ⟨x, _, hx⟩
    by_cases hxs : isSpaceChar x
    · rw [if_pos hxs] at hx; exact hx.symm
    · rw [if_neg hxs] at hx
      rw [← hx] at hsp
      exact absurd hsp hxs
  · exact noAdjSpaces_pyStrip (noAdjSpaces_squeezeSpaces _)
  · by_cases hne : cleanText t = []
    · rw [show cleanText t = pyStrip (squeezeSpaces (t.map _)) from rfl] at hne ⊢
      rw [hne]
      simp
    · rcases head?_pyStrip _ hne with ⟨a, ha, has⟩
      rw [show cleanText t = pyStrip (squeezeSpaces (t.map _)) from rfl, ha]
      intro hcon
      rw [Option.some.injEq] at hcon
      rw [hcon] at has
      simp [isSpaceChar] at has
  · by_cases hne : cleanText t = []
    · rw [show cleanText t = pyStrip (squeezeSpaces (t.map _)) from rfl] at hne ⊢
      rw [hne]
      simp
    · rcases getLast?_pyStrip _ hne with ⟨a, ha, has⟩
      rw [show cleanText t = pyStrip (squeezeSpaces (t.map _)) from rfl, ha]
      intro hcon
      rw [Option.some.injEq] at hcon
      rw [hcon] at has
      simp [isSpaceChar] at has

theorem dropWhile_eq_self_of_head {p : Char → Bool} {l : List Char}
    (h : ∀ a, l.head? = some a → p a = false) : l.dropWhile p = l := by
  cases l with
  | nil => rfl
  | cons c cs =>
    rw [List.dropWhile_cons, if_neg]
    rw [h c rfl]
    simp

/-- On a cleaned text, `strip` is the identity. -/
theorem pyStrip_eq_self {t : List Char} (h : Cleaned t) : pyStrip t = t := by
  obtain ⟨hws, _, hhd, hlast⟩ := h
  unfold pyStrip
  have h1 : t.dropWhile isSpaceChar = t := by
    apply dropWhile_eq_self_of_head
    intro a ha
    have hmem : a ∈ t := by
      cases t with
      | nil => simp at ha
      | cons c cs =>
        rw [List.head?_cons, Option.some.injEq] at ha
        rw [← ha]; exact List.mem_cons_self _ _
    by_cases hsp : isSpaceChar a
    · exact absurd (ha ▸ congrArg some (hws a hmem hsp)) hhd
    · simpa using hsp
  rw [h1]
  have h2 : t.reverse.dropWhile isSpaceChar = t.reverse := by
    apply dropWhile_eq_self_of_head
    intro a ha
    rw [List.head?_reverse] at ha
    have hmem : a ∈ t := by
      rcases List.mem_getLast?_eq_getLast (Option.mem_def.mpr ha) with ⟨hne, hx⟩
      rw [hx]; exact List.getLast_mem hne
    by_cases hsp : isSpaceChar a
    · exact absurd (ha ▸ congrArg some (hws a hmem hsp)) hlast
    · simpa using hsp
  rw [h2, List.reverse_reverse]

/-- If `strip` empties a window, every character of it was whitespace. -/
theorem pyStrip_eq_nil {w : List Char} (h : pyStrip w = []) :
    ∀ c ∈ w, isSpaceChar c = true := by
  unfold pyStrip at h
  rw [List.reverse_eq_nil_iff] at h
  have h1 : ∀ c ∈ (w.dropWhile isSpaceChar).reverse, isSpaceChar c = true :=
    List.dropWhile_eq_nil_iff.mp h
  have h2 : ∀ c ∈ w.dropWhile isSpaceChar, isSpaceChar c = true := by
    intro c hc; exact h1 c (List.mem_reverse.mpr hc)
  intro c hc
  rcases List.mem_append.mp
      ((List.takeWhile_append_dropWhile isSpaceChar w) ▸ hc) with h3 | h3
  · exact List.mem_takeWhile_imp h3
  · exact h2 c h3

theorem noAdjSpaces_get {t : List Char} (h : NoAdjSpaces t) {i : Nat}
    (h1 : t.get? i = some ' ') (h2 : t.get? (i + 1) = some ' ') : False := by
  rcases List.get?_eq_some.mp h2 with ⟨hlt, hg2⟩
  rcases List.get?_eq_some.mp h1 with ⟨hlt1, hg1⟩
  have hi : i < t.length - 1 := by omega
  have hR := List.chain'_iff_get.mp h i hi
  exact hR hg1 hg2

/-! ## Characterizing `pyRfind`, `pySlice`, `pyIdx` -/

theorem pyIdx_le (n : Nat) (i : Int) : pyIdx n i ≤ n := by
  unfold pyIdx
  by_cases h : i < 0
  · rw [if_pos h]; omega
  · rw [if_neg h]; omega

theorem pyIdx_of_nonneg {n : Nat} {i : Int} (h0 : 0 ≤ i) (h1 : i ≤ (n : Int)) :
    pyIdx n i = i.toNat := by
  unfold pyIdx
  rw [if_neg (not_lt.mpr h0)]
  omega

theorem find?_range_reverse_ge {p : Nat → Bool} {n j k : Nat} (hjn : j < n)
    (hpj : p j = true) (hk : (List.range n).reverse.find? p = some k) : j ≤ k := by
  induction n generalizing k with
  | zero => omega
  | succ m ih =>
    rw [List.range_succ, List.reverse_append, List.reverse_singleton,
      List.singleton_append] at hk
    by_cases hm : p m
    · rw [List.find?_cons_of_pos _ hm, Option.some.injEq] at hk
      omega
    · rw [List.find?_cons_of_neg _ hm] at hk
      rcases Nat.lt_succ_iff_lt_or_eq.mp hjn with h | h
      · exact ih h hk
      · exact absurd (h ▸ hpj) hm

theorem find?_range_reverse_isSome {p : Nat → Bool} {n j : Nat} (hjn : j < n)
    (hpj : p j = true) : ((List.range n).reverse.find? p).isSome = true :=
  List.find?_isSome.mpr ⟨j, List.mem_reverse.mpr (List.mem_range.mpr hjn), hpj⟩

/-- When `pyRfind` does not return `-1`, its result is a position of `c`
inside the normalized search range. -/
theorem pyRfind_spec (t : List Char) (c : Char) (a b : Int)
    (h : pyRfind t c a b ≠ -1) :
    0 ≤ pyRfind t c a b ∧
      pyIdx t.length a ≤ (pyRfind t c a b).toNat ∧
      (pyRfind t c a b).toNat < pyIdx t.length b ∧
      t.get? (pyRfind t c a b).toNat = some c := by
  simp only [pyRfind] at h ⊢
  cases hf : (List.range (pyIdx t.length b)).reverse.find?
      (fun k => decide (pyIdx t.length a ≤ k) && (t.getD k (Char.ofNat 0) == c)) with
  | none => rw [hf] at h; exact absurd rfl h
  | some k =>
    have hp := List.find?_some hf
    rw [Bool.and_eq_true, decide_eq_true_eq, beq_iff_eq] at hp
    have hmem : k < pyIdx t.length b :=
      List.mem_range.mp (List.mem_reverse.mp (List.mem_of_find?_eq_some hf))
    have hklen : k < t.length := lt_of_lt_of_le hmem (pyIdx_le _ _)
    have hget : t.get? k = some c := by
      rw [List.getD_eq_getD_get?] at hp
      cases hg : t.get? k with
      | none => rw [List.get?_eq_none] at hg; omega
      | some x =>
        rw [hg] at hp
        exact congrArg some hp.2
    show 0 ≤ (k : Int) ∧ pyIdx t.length a ≤ (k : Int).toNat ∧
      (k : Int).toNat < pyIdx t.length b ∧ t.get? (k : Int).toNat = some c
    rw [Int.toNat_ofNat]
    exact ⟨Int.ofNat_nonneg k, hp.1, hmem, hget⟩

/-- If position `j` holds `c` inside the normalized search range, then
`pyRfind` finds a position `≥ j`. -/
theorem pyRfind_ge {t : List Char} {c : Char} {a b : Int} {j : Nat}
    (hja : pyIdx t.length a ≤ j) (hjb : j < pyIdx t.length b)
    (hc : t.get? j = some c) : (j : Int) ≤ pyRfind t c a b := by
  simp only [pyRfind]
  have hpj : (fun k => decide (pyIdx t.length a ≤ k) && (t.getD k (Char.ofNat 0) == c)) j
      = true := by
    rw [Bool.and_eq_true, decide_eq_true_eq, beq_iff_eq, List.getD_eq_getD_get?, hc]
    exact ⟨hja, rfl⟩
  cases hf : (List.range (pyIdx t.length b)).reverse.find?
      (fun k => decide (pyIdx t.length a ≤ k) && (t.getD k (Char.ofNat 0) == c)) with
  | none =>
    have := @find?_range_reverse_isSome
      (fun k => decide (pyIdx t.length a ≤ k) && (t.getD k (Char.ofNat 0) == c))
      (pyIdx t.length b) j hjb hpj
    rw [hf] at this
    simp at this
  | some k =>
    show (j : Int) ≤ (k : Int)
    have := @find?_range_reverse_ge
      (fun k => decide (pyIdx t.length a ≤ k) && (t.getD k (Char.ofNat 0) == c))
      (pyIdx t.length b) j k hjb hpj hf
    exact_mod_cast this

/-- A character sitting at a position inside the normalized slice range is
a member of the slice. -/
theorem mem_pySlice_of_get? {t : List Char} {a b : Int} {m : Nat} {x : Char}
    (ha : pyIdx t.length a ≤ m) (hb : m < pyIdx t.length b)
    (hx : t.get? m = some x) : x ∈ pySlice t a b := by
  unfold pySlice
  have h1 : (( t.take (pyIdx t.length b)).drop (pyIdx t.length a)).get?
      (m - pyIdx t.length a) = some x := by
    rw [List.get?_drop]
    have : pyIdx t.length a + (m - pyIdx t.length a) = m := by omega
    rw [this]
    rw [List.get?_take hb]
    exact hx
  exact List.get?_mem h1

/-- Slicing from a nonnegative `a ≤ len` up to any `b ≥ len` is `drop`. -/
theorem pySlice_of_ge_length {t : List Char} {a b : Int} (ha0 : 0 ≤ a)
    (ha : a ≤ (t.length : Int)) (hb : (t.length : Int) ≤ b) :
    pySlice t a b = t.drop a.toNat := by
  unfold pySlice
  have hbl : pyIdx t.length b = t.length := by
    unfold pyIdx
    rw [if_neg (not_lt.mpr (le_trans (by exact_mod_cast Int.ofNat_nonneg t.length) hb))]
    omega
  rw [hbl, pyIdx_of_nonneg ha0 ha, List.take_length]

theorem chunkEnd_gt {cs : Int} (hcs : 0 < cs) (t : List Char) (start : Int) :
    start < chunkEnd cs t start := by
  unfold chunkEnd
  by_cases h1 : start + cs < (t.length : Int)
  · rw [if_pos h1]
    by_cases h2 : pyRfind t ' ' start (start + cs) > start
    · rw [if_pos h2]; exact h2
    · rw [if_neg h2]; omega
  · rw [if_neg h1]; omega

/-- The loop's result does not depend on the fuel, as long as the loop
finishes. -/
theorem chunkLoopF_det {cs ov : Int} {t : List Char} :
    ∀ {f1 f2 : Nat} {s : Int} {i : Nat} {l1 l2 : List Chunk},
      chunkLoopF cs ov t f1 s i = some l1 →
      chunkLoopF cs ov t f2 s i = some l2 → l1 = l2 := by
  intro f1
  induction f1 with
  | zero =>
    intro f2 s i l1 l2 h1 h2
    rw [chunkLoopF] at h1
    by_cases hs : s < (t.length : Int)
    · rw [if_pos hs] at h1; exact absurd h1 (by simp)
    · rw [if_neg hs] at h1
      rw [Option.some.injEq] at h1
      subst h1
      cases f2 with
      | zero =>
        rw [chunkLoopF, if_neg hs, Option.some.injEq] at h2
        exact h2
      | succ f =>
        rw [chunkLoopF, if_neg hs, Option.some.injEq] at h2
        exact h2
  | succ f ih =>
    intro f2 s i l1 l2 h1 h2
    by_cases hs : s < (t.length : Int)
    · cases f2 with
      | zero =>
        rw [chunkLoopF, if_pos hs] at h2
        exact absurd h2 (by simp)
      | succ f' =>
        rw [chunkLoopF, if_pos hs] at h1 h2
        cases hit : chunkIter cs ov t s i with
        | mk oc s' =>
          rw [hit] at h1 h2
          cases oc with
          | none => exact ih h1 h2
          | some c =>
            simp only [Option.map_eq_some'] at h1 h2
            rcases h1 with ⟨r1, hr1, hl1⟩
            rcases h2 with ⟨r2, hr2, hl2⟩
            rw [← hl1, ← hl2, ih hr1 hr2]
    · rw [chunkLoopF, if_neg hs, Option.some.injEq] at h1
      cases f2 with
      | zero =>
        rw [chunkLoopF, if_neg hs, Option.some.injEq] at h2
        rw [← h1, ← h2]
      | succ f' =>
        rw [chunkLoopF, if_neg hs, Option.some.injEq] at h2
        rw [← h1, ← h2]

/-! ## Claim C4 — cursor advance / termination -/

theorem chunkLoop_stuck_at_zero :
    ∀ (fuel idx : Nat), chunkLoopF 5 1 "a bcdefghij".toList fuel 0 idx = none := by
  intro fuel
  induction fuel with
  | zero => intro idx; rfl
  | succ f ih =>
    intro idx
    have hstep : chunkIter 5 1 "a bcdefghij".toList 0 idx
        = (some ⟨"a".toList, idx, 0, 1⟩, 0) := rfl
    rw [chunkLoopF, if_pos (by decide), hstep]
    show Option.map (fun rest => Chunk.mk "a".toList idx 0 1 :: rest)
      (chunkLoopF 5 1 "a bcdefghij".toList f 0 (idx + 1)) = none
    rw [ih (idx + 1)]
    rfl

/-- Claim C4 (code_bug): the claim states that for `0 ≤ chunk_overlap <
chunk_size` the cursor strictly advances on every iteration, hence
`chunk_text` terminates.  The code violates this: on the text
`"a bcdefghij"` with `chunk_size = 5`, `chunk_overlap = 1` (valid
parameters: `0 ≤ 1 < 5`), the first iteration snaps the window end to the
space at position 1 and sets the next cursor to `1 - 1 = 0`, so the
cursor does not advance and the loop re-emits the chunk `"a"` forever:
`chunk_text` runs out of any amount of fuel. -/
theorem C4_cursor_can_fail_to_advance :
    (0 : Int) ≤ 1 ∧ (1 : Int) < 5 ∧
      chunkIter 5 1 "a bcdefghij".toList 0 0 = (some ⟨"a".toList, 0, 0, 1⟩, 0) ∧
      ∀ fuel : Nat, chunkText 5 1 "a bcdefghij".toList fuel = none := by
  refine ⟨by decide, by decide, rfl, ?_⟩
  intro fuel
  unfold chunkText
  rw [show cleanText "a bcdefghij".toList = "a bcdefghij".toList from by decide]
  exact chunkLoop_stuck_at_zero fuel 0

/-! ## Claim C10 — the final window's end is not capped at the text length -/

theorem getLast?_drop_of_ne_nil {l : List Char} {n : Nat} (h : l.drop n ≠ []) :
    (l.drop n).getLast? = l.getLast? := by
  conv_rhs => rw [← List.take_append_drop n l]
  rw [List.getLast?_append]
  cases hg : (l.drop n).getLast? with
  | none => exact absurd (List.getLast?_eq_none_iff.mp hg) h
  | some a => rfl

theorem pyStrip_ne_nil_of_getLast {w : List Char} (hne : w ≠ [])
    (hws : ∀ c ∈ w, isSpaceChar c = true → c = ' ')
    (hlast : w.getLast? ≠ some ' ') : pyStrip w ≠ [] := by
  intro h
  have hall := pyStrip_eq_nil h
  cases hg : w.getLast? with
  | none => exact absurd (List.getLast?_eq_none_iff.mp hg) hne
  | some a =>
    rcases List.mem_getLast?_eq_getLast (Option.mem_def.mpr hg) with ⟨hw, hx⟩
    have hmem : a ∈ w := hx ▸ List.getLast_mem hw
    have := hws a hmem (hall a hmem)
    rw [this] at hg
    exact hlast hg

theorem chunkLoopF_stop {cs ov : Int} {t : List Char} {s : Int}
    (h : ¬ s < (t.length : Int)) (fuel idx : Nat) :
    chunkLoopF cs ov t fuel s idx = some [] := by
  cases fuel with
  | zero => rw [chunkLoopF, if_neg h]
  | succ f => rw [chunkLoopF, if_neg h]

/-- Helper: whenever the loop reaches a cursor `s` whose window
`[s, s + chunk_size)` strictly overruns the cleaned text, the iteration
does not snap: it emits one final chunk with `end_char = s + chunk_size`
(strictly beyond the text length) and the loop terminates. -/
theorem chunkLoop_overrun_emits_final (text : List Char) (cs ov : Int)
    (idx fuel : Nat) (s : Int) (h0 : 0 ≤ s)
    (h1 : s < ((cleanText text).length : Int))
    (h2 : ((cleanText text).length : Int) < s + cs) :
    chunkLoopF cs ov (cleanText text) (fuel + 1) s idx =
      some [⟨pyStrip ((cleanText text).drop s.toNat), idx, s, s + cs⟩] ∧
    ((cleanText text).length : Int) < s + cs := by
  set t := cleanText text with ht
  have hcl : Cleaned t := cleanText_cleaned text
  have hnot : ¬ (s + cs < (t.length : Int)) := not_lt.mpr (le_of_lt h2)
  have hEnd : chunkEnd cs t s = s + cs := by
    unfold chunkEnd
    rw [if_neg hnot]
  have hdne : t.drop s.toNat ≠ [] := by
    intro hdrop
    have := List.drop_eq_nil_iff_le.mp hdrop
    omega
  have hne : pyStrip (t.drop s.toNat) ≠ [] := by
    apply pyStrip_ne_nil_of_getLast hdne
    · intro c hc
      exact hcl.1 c (List.drop_subset _ _ hc)
    · rw [getLast?_drop_of_ne_nil hdne]
      exact hcl.2.2.2
  have hiter : chunkIter cs ov t s idx
      = (some ⟨pyStrip (t.drop s.toNat), idx, s, s + cs⟩, s + cs) := by
    simp only [chunkIter, hEnd]
    rw [pySlice_of_ge_length h0 (le_of_lt h1) (le_of_lt h2)]
    rw [if_neg hnot]
    rw [if_neg (by rw [List.isEmpty_iff]; exact hne)]
  refine ⟨?_, h2⟩
  rw [chunkLoopF, if_pos h1, hiter]
  show Option.map _ (chunkLoopF cs ov t fuel (s + cs) (idx + 1)) = _
  rw [chunkLoopF_stop hnot fuel (idx + 1)]
  rfl

/-- Claim C10 (confirmed): for a cursor `s` with `0 ≤ s < len` and
`len < s + chunk_size` (the final window overruns the cleaned text), the
iteration emits a final chunk whose `end_char` equals `s + chunk_size`
and therefore strictly exceeds the length of the cleaned text:
`chunk_text` never caps `end_char` at the text length. -/
theorem C10_end_char_never_capped (text : List Char) (cs ov : Int)
    (idx fuel : Nat) (s : Int) (h0 : 0 ≤ s)
    (h1 : s < ((cleanText text).length : Int))
    (h2 : ((cleanText text).length : Int) < s + cs) :
    chunkLoopF cs ov (cleanText text) (fuel + 1) s idx =
      some [⟨pyStrip ((cleanText text).drop s.toNat), idx, s, s + cs⟩] ∧
    ((cleanText text).length : Int) < s + cs :=
  chunkLoop_overrun_emits_final text cs ov idx fuel s h0 h1 h2

/-- Witness for C10 at the spec's running example `"abcdefgh ijkl"`,
`chunk_size = 10`, `chunk_overlap = 2`: the final window starts at 6,
and the final chunk's `end_char` is `16 > 13`. -/
theorem C10_end_char_never_capped_witness :
    ((0 : Int) ≤ 6 ∧ (6 : Int) < ((cleanText "abcdefgh ijkl".toList).length : Int) ∧
      ((cleanText "abcdefgh ijkl".toList).length : Int) < 6 + 10) ∧
    (chunkLoopF 10 2 (cleanText "abcdefgh ijkl".toList) (0 + 1) 6 1 =
      some [⟨pyStrip ((cleanText "abcdefgh ijkl".toList).drop (6 : Int).toNat), 1, 6, 6 + 10⟩] ∧
      ((cleanText "abcdefgh ijkl".toList).length : Int) < 6 + 10) :=
  ⟨⟨by decide, by decide, by decide⟩,
    C10_end_char_never_capped "abcdefgh ijkl".toList 10 2 1 0 6
      (by decide) (by decide) (by decide)⟩

/-! ## Claim C8 — text shorter than `chunk_size` -/

/-- Claim C8 (corrected): if the cleaned text is nonempty and strictly
shorter than `chunk_size`, then `chunk_text` emits exactly one chunk,
whose content is the whole cleaned (trimmed) text, spanning
`[0, chunk_size)`; this holds for one unit of fuel and, by determinism,
for any fuel on which the loop finishes.  (The original claim, without
the nonemptiness proviso, is refuted by `C8_counterexample`.) -/
theorem C8_short_text_single_chunk (text : List Char) (cs ov : Int)
    (h1 : 0 < (cleanText text).length)
    (h2 : ((cleanText text).length : Int) < cs) :
    chunkText cs ov text 1 = some [⟨cleanText text, 0, 0, cs⟩] ∧
    ∀ fuel l, chunkText cs ov text fuel = some l →
      l = [⟨cleanText text, 0, 0, cs⟩] := by
  have h1' : (0 : Int) < ((cleanText text).length : Int) := by exact_mod_cast h1
  have h2' : ((cleanText text).length : Int) < 0 + cs := by omega
  have key := chunkLoop_overrun_emits_final text cs ov 0 0 0 le_rfl h1' h2'
  have hself : pyStrip ((cleanText text).drop (0 : Int).toNat) = cleanText text := by
    rw [show ((0 : Int).toNat) = 0 from rfl, List.drop_zero]
    exact pyStrip_eq_self (cleanText_cleaned text)
  have hone : chunkText cs ov text 1 = some [⟨cleanText text, 0, 0, cs⟩] := by
    unfold chunkText
    rw [show (1 : Nat) = 0 + 1 from rfl]
    rw [key.1, hself]
    rw [show (0 : Int) + cs = cs from by omega]
  refine ⟨hone, ?_⟩
  intro fuel l hl
  exact chunkLoopF_det hl hone

/-- Witness for C8 on `"hello world"` with `chunk_size = 100`,
`chunk_overlap = 20`. -/
theorem C8_short_text_single_chunk_witness :
    (0 < (cleanText "hello world".toList).length ∧
      ((cleanText "hello world".toList).length : Int) < 100) ∧
    (chunkText 100 20 "hello world".toList 1 =
      some [⟨cleanText "hello world".toList, 0, 0, 100⟩] ∧
    ∀ fuel l, chunkText 100 20 "hello world".toList fuel = some l →
      l = [⟨cleanText "hello world".toList, 0, 0, 100⟩]) :=
  ⟨⟨by decide, by decide⟩,
    C8_short_text_single_chunk "hello world".toList 100 20 (by decide) (by decide)⟩

/-- Counterexample to C8 as stated: the empty text has cleaned length
`0 < chunk_size = 5`, yet `chunk_text` emits zero chunks, not exactly
one. -/
theorem C8_counterexample :
    ((cleanText "".toList).length : Int) < 5 ∧
      chunkText 5 0 "".toList 3 = some [] ∧ ([] : List Chunk).length ≠ 1 := by
  refine ⟨by decide, by decide, by decide⟩

/-! ## Claim C6 — word-boundary preservation -/

theorem pyIdx_of_neg {n : Nat} {i : Int} (h : i < 0) :
    pyIdx n i = ((n : Int) + i).toNat := by
  unfold pyIdx
  rw [if_pos h]

theorem pyRfind_eq_neg_one_of_range_empty {t : List Char} {c : Char} {a b : Int}
    (h : pyIdx t.length b ≤ pyIdx t.length a) : pyRfind t c a b = -1 := by
  by_contra hne
  have hs := pyRfind_spec t c a b hne
  omega

/-- Once the cursor falls to `-2` or below (with `1 ≤ overlap < chunk_size
≤ len`), every subsequent iteration computes `end = -1` and the cursor
sticks at `-1 - overlap`: the loop never finishes. -/
theorem chunkLoop_neg_diverges {cs ov : Int} {t : List Char}
    (hlen : cs ≤ (t.length : Int)) (hov : 1 ≤ ov) (hoc : ov < cs) :
    ∀ fuel (s : Int) (idx : Nat), -cs ≤ s → s ≤ -2 →
      chunkLoopF cs ov t fuel s idx = none := by
  intro fuel
  induction fuel with
  | zero =>
    intro s idx h1 h2
    rw [chunkLoopF, if_pos (by omega)]
  | succ f ih =>
    intro s idx h1 h2
    have he0lt : s + cs < (t.length : Int) := by omega
    have hr : pyRfind t ' ' s (s + cs) = -1 := by
      apply pyRfind_eq_neg_one_of_range_empty
      rw [pyIdx_of_neg (by omega : s < 0), pyIdx_of_nonneg (by omega) (by omega)]
      omega
    have hEnd : chunkEnd cs t s = -1 := by
      unfold chunkEnd
      rw [if_pos he0lt, hr, if_pos (by omega : (-1 : Int) > s)]
    have hsnd : (chunkIter cs ov t s idx).2 = -1 - ov := by
      simp only [chunkIter, hEnd]
      rw [if_pos (by omega : (-1 : Int) < (t.length : Int))]
    rw [chunkLoopF, if_pos (by omega : s < (t.length : Int))]
    cases hc : chunkIter cs ov t s idx with
    | mk oc s2 =>
      rw [hc] at hsnd
      have hs2 : s2 = -1 - ov := hsnd
      subst hs2
      cases oc with
      | none =>
        show chunkLoopF cs ov t f (-1 - ov) idx = none
        exact ih _ _ (by omega) (by omega)
      | some c =>
        show Option.map _ (chunkLoopF cs ov t f (-1 - ov) (idx + 1)) = none
        rw [ih _ _ (by omega) (by omega)]
        rfl

/-- Helper for claim C6: in any finished run of the loop, every
non-final emitted chunk whose search window `(start, start + chunk_size)`
contains a space has its `end_char` snapped onto a space of the text. -/
theorem chunkLoop_word_boundary {cs ov : Int} {t : List Char}
    (hcs : 0 < cs) (hov : 0 ≤ ov) (hoc : ov < cs) (hlen : cs ≤ (t.length : Int)) :
    ∀ (fuel : Nat) (s : Int) (idx : Nat) (l : List Chunk),
      (1 ≤ ov ∨ 0 ≤ s) → -cs ≤ s →
      chunkLoopF cs ov t fuel s idx = some l →
      ∀ i : Nat, i + 1 < l.length →
      ∀ j : Nat, (l.getD i default).start_char < (j : Int) →
        (j : Int) < (l.getD i default).start_char + cs →
        t.get? j = some ' ' →
        0 ≤ (l.getD i default).end_char ∧
        (l.getD i default).end_char < (t.length : Int) ∧
        t.get? (l.getD i default).end_char.toNat = some ' ' := by
  intro fuel
  induction fuel with
  | zero =>
    intro s idx l hinv hges hrun i hi j hj1 hj2 hsp
    rw [chunkLoopF] at hrun
    by_cases hs : s < (t.length : Int)
    · rw [if_pos hs] at hrun; exact absurd hrun (by simp)
    · rw [if_neg hs, Option.some.injEq] at hrun
      rw [← hrun] at hi
      simp at hi
  | succ f ih =>
    intro s idx l hinv hges hrun i hi j hj1 hj2 hsp
    by_cases hs : s < (t.length : Int)
    · by_cases hge0 : 0 ≤ s
      · -- main case: nonnegative cursor
        rw [chunkLoopF, if_pos hs] at hrun
        by_cases he0 : s + cs < (t.length : Int)
        · -- window end strictly inside the text
          have heLt : chunkEnd cs t s < (t.length : Int) := by
            unfold chunkEnd
            rw [if_pos he0]
            by_cases hsnap : pyRfind t ' ' s (s + cs) > s
            · rw [if_pos hsnap]
              have hne : pyRfind t ' ' s (s + cs) ≠ -1 := by omega
              have hspec := pyRfind_spec t ' ' s (s + cs) hne
              have hpy : pyIdx t.length (s + cs) = (s + cs).toNat :=
                pyIdx_of_nonneg (by omega) (by omega)
              omega
            · rw [if_neg hsnap]; exact he0
          have hiter : chunkIter cs ov t s idx =
              (if (pyStrip (pySlice t s (chunkEnd cs t s))).isEmpty = true then none
               else some ⟨pyStrip (pySlice t s (chunkEnd cs t s)), idx, s, chunkEnd cs t s⟩,
               chunkEnd cs t s - ov) := by
            simp only [chunkIter]
            rw [if_pos heLt]
          have hgt := chunkEnd_gt hcs t s
          have hinv' : 1 ≤ ov ∨ 0 ≤ chunkEnd cs t s - ov := by
            by_cases h1 : 1 ≤ ov
            · exact Or.inl h1
            · exact Or.inr (by omega)
          have hges' : -cs ≤ chunkEnd cs t s - ov := by omega
          by_cases hemp : (pyStrip (pySlice t s (chunkEnd cs t s))).isEmpty = true
          · -- window dropped: recurse
            rw [if_pos hemp] at hiter
            rw [hiter] at hrun
            exact ih (chunkEnd cs t s - ov) idx l hinv' hges' hrun i hi j hj1 hj2 hsp
          · -- chunk emitted
            rw [if_neg hemp] at hiter
            rw [hiter] at hrun
            have hrun' : (chunkLoopF cs ov t f (chunkEnd cs t s - ov) (idx + 1)).map
                (fun rest => (⟨pyStrip (pySlice t s (chunkEnd cs t s)), idx, s,
                  chunkEnd cs t s⟩ : Chunk) :: rest) = some l := hrun
            rw [Option.map_eq_some'] at hrun'
            rcases hrun' with ⟨rest, hrest, hl⟩
            cases i with
            | zero =>
              rw [← hl] at hj1 hj2
              have hj1' : s < (j : Int) := hj1
              have hj2' : (j : Int) < s + cs := hj2
              -- the window contains a space strictly after `start`: snap
              have hja : pyIdx t.length s ≤ j := by
                rw [pyIdx_of_nonneg hge0 (by omega)]
                omega
              have hjb : j < pyIdx t.length (s + cs) := by
                rw [pyIdx_of_nonneg (by omega) (by omega)]
                omega
              have hge := pyRfind_ge hja hjb hsp
              have hsnap : pyRfind t ' ' s (s + cs) > s := by omega
              have hne : pyRfind t ' ' s (s + cs) ≠ -1 := by omega
              have hspec := pyRfind_spec t ' ' s (s + cs) hne
              have hpy : pyIdx t.length (s + cs) = (s + cs).toNat :=
                pyIdx_of_nonneg (by omega) (by omega)
              have hEnd : chunkEnd cs t s = pyRfind t ' ' s (s + cs) := by
                unfold chunkEnd
                rw [if_pos he0, if_pos hsnap]
              have hfin : 0 ≤ chunkEnd cs t s ∧
                  chunkEnd cs t s < (t.length : Int) ∧
                  t.get? (chunkEnd cs t s).toNat = some ' ' := by
                rw [hEnd]
                exact ⟨hspec.1, by omega, hspec.2.2.2⟩
              rw [← hl]
              exact hfin
            | succ i2 =>
              rw [← hl, List.getD_cons_succ] at hj1 hj2 ⊢
              rw [← hl, List.length_cons] at hi
              exact ih (chunkEnd cs t s - ov) (idx + 1) rest hinv' hges' hrest i2
                (by omega) j hj1 hj2 hsp
        · -- the window reaches past the end: at most one final chunk
          have hEnd : chunkEnd cs t s = s + cs := by
            unfold chunkEnd
            rw [if_neg he0]
          have hiter : chunkIter cs ov t s idx =
              (if (pyStrip (pySlice t s (s + cs))).isEmpty = true then none
               else some ⟨pyStrip (pySlice t s (s + cs)), idx, s, s + cs⟩,
               s + cs) := by
            simp only [chunkIter, hEnd]
            rw [if_neg he0]
          by_cases hemp : (pyStrip (pySlice t s (s + cs))).isEmpty = true
          · rw [if_pos hemp] at hiter
            rw [hiter] at hrun
            have hstop : chunkLoopF cs ov t f (s + cs) idx = some [] :=
              chunkLoopF_stop (by omega) f idx
            have hrun' : chunkLoopF cs ov t f (s + cs) idx = some l := hrun
            rw [hstop, Option.some.injEq] at hrun'
            rw [← hrun'] at hi
            simp at hi
          · rw [if_neg hemp] at hiter
            rw [hiter] at hrun
            have hstop : chunkLoopF cs ov t f (s + cs) (idx + 1) = some [] :=
              chunkLoopF_stop (by omega) f (idx + 1)
            have hrun' : (chunkLoopF cs ov t f (s + cs) (idx + 1)).map
                (fun rest => (⟨pyStrip (pySlice t s (s + cs)), idx, s, s + cs⟩ : Chunk)
                  :: rest) = some l := hrun
            rw [hstop, Option.map_some', Option.some.injEq] at hrun'
            rw [← hrun'] at hi
            simp at hi
      · by_cases hneg2 : s ≤ -2
        · -- deep negative cursor: the run cannot finish, contradiction
          have h1le : 1 ≤ ov := by
            rcases hinv with h | h
            · exact h
            · omega
          have hdiv := chunkLoop_neg_diverges hlen h1le hoc (f + 1) s idx hges hneg2
          rw [hdiv] at hrun
          exact absurd hrun (by simp)
        · -- cursor exactly -1: the window is dropped, recurse
          have hs1 : s = -1 := by omega
          subst hs1
          have he0lt : -1 + cs < (t.length : Int) := by omega
          have hr : pyRfind t ' ' (-1) (-1 + cs) = -1 := by
            apply pyRfind_eq_neg_one_of_range_empty
            rw [pyIdx_of_neg (by omega : (-1 : Int) < 0),
              pyIdx_of_nonneg (by omega) (by omega)]
            omega
          have hEnd : chunkEnd cs t (-1) = -1 + cs := by
            unfold chunkEnd
            rw [if_pos he0lt, hr, if_neg (by omega)]
          have hslice : pySlice t (-1) (-1 + cs) = [] := by
            unfold pySlice
            apply List.drop_eq_nil_iff_le.mpr
            rw [List.length_take, pyIdx_of_nonneg (by omega) (by omega),
              pyIdx_of_neg (by omega : (-1 : Int) < 0)]
            omega
          have hiter : chunkIter cs ov t (-1) idx = (none, -1 + cs - ov) := by
            simp only [chunkIter, hEnd, hslice]
            rw [if_pos he0lt, if_pos (show (pyStrip []).isEmpty = true from rfl)]
          rw [chunkLoopF, if_pos hs, hiter] at hrun
          exact ih (-1 + cs - ov) idx l (Or.inr (by omega)) (by omega) hrun i hi
            j hj1 hj2 hsp
    · rw [chunkLoopF, if_neg hs, Option.some.injEq] at hrun
      rw [← hrun] at hi
      simp at hi

/-- Claim C6 (confirmed): for any finished `chunk_text` run with valid
parameters (`0 ≤ overlap < chunk_size`), no non-final chunk's `end_char`
lands inside a word when a preceding space exists within that chunk's
window: if some position `j` with `start_char < j < start_char +
chunk_size` holds a space of the cleaned text, then the chunk's
`end_char` is itself the position of a space (never the middle of a
word). -/
theorem C6_word_boundary (text : List Char) (cs ov : Int) (fuel : Nat)
    (l : List Chunk) (hcs : 0 < cs) (hov : 0 ≤ ov) (hoc : ov < cs)
    (hrun : chunkText cs ov text fuel = some l) :
    ∀ i : Nat, i + 1 < l.length →
    ∀ j : Nat, (l.getD i default).start_char < (j : Int) →
      (j : Int) < (l.getD i default).start_char + cs →
      (cleanText text).get? j = some ' ' →
      0 ≤ (l.getD i default).end_char ∧
      (l.getD i default).end_char < ((cleanText text).length : Int) ∧
      (cleanText text).get? (l.getD i default).end_char.toNat = some ' ' := by
  intro i hi j hj1 hj2 hsp
  unfold chunkText at hrun
  by_cases hlen : cs ≤ ((cleanText text).length : Int)
  · exact chunkLoop_word_boundary hcs hov hoc hlen fuel 0 0 l (Or.inr le_rfl)
      (by omega) hrun i hi j hj1 hj2 hsp
  · exfalso
    by_cases h0 : 0 < (cleanText text).length
    · cases fuel with
      | zero =>
        rw [chunkLoopF, if_pos (by exact_mod_cast h0)] at hrun
        exact absurd hrun (by simp)
      | succ f =>
        have key := chunkLoop_overrun_emits_final text cs ov 0 f 0 le_rfl
          (by exact_mod_cast h0) (by omega)
        rw [key.1, Option.some.injEq] at hrun
        rw [← hrun] at hi
        simp at hi
    · have hstop : chunkLoopF cs ov (cleanText text) fuel 0 0 = some [] :=
        chunkLoopF_stop (by omega) fuel 0
      rw [hstop, Option.some.injEq] at hrun
      rw [← hrun] at hi
      simp at hi

/-- Witness for C6 at the spec's example: text `"abcdefgh ijkl"`,
`chunk_size = 10`, `chunk_overlap = 2`.  The first chunk is non-final,
its window holds the space at position 8, and indeed its `end_char` is 8,
the position of the space — the boundary snapped rather than splitting
`"ijkl"`. -/
theorem C6_word_boundary_witness :
    (chunkText 10 2 "abcdefgh ijkl".toList 5 =
      some [⟨"abcdefgh".toList, 0, 0, 8⟩, ⟨"gh ijkl".toList, 1, 6, 16⟩]) ∧
    (0 ≤ (([⟨"abcdefgh".toList, 0, 0, 8⟩,
        ⟨"gh ijkl".toList, 1, 6, 16⟩] : List Chunk).getD 0 default).end_char ∧
      (([⟨"abcdefgh".toList, 0, 0, 8⟩,
        ⟨"gh ijkl".toList, 1, 6, 16⟩] : List Chunk).getD 0 default).end_char <
        ((cleanText "abcdefgh ijkl".toList).length : Int) ∧
      (cleanText "abcdefgh ijkl".toList).get?
        (([⟨"abcdefgh".toList, 0, 0, 8⟩,
          ⟨"gh ijkl".toList, 1, 6, 16⟩] : List Chunk).getD 0 default).end_char.toNat =
        some ' ') :=
  ⟨by decide,
    C6_word_boundary "abcdefgh ijkl".toList 10 2 5
      [⟨"abcdefgh".toList, 0, 0, 8⟩, ⟨"gh ijkl".toList, 1, 6, 16⟩]
      (by decide) (by decide) (by decide) (by decide) 0 (by decide) 8
      (by decide) (by decide) (by decide)⟩

/-! ## Claim C5 — chunk coverage and non-emptiness -/

theorem pyStrip_ne_nil_of_mem {w : List Char} {x : Char} (hx : x ∈ w)
    (hs : isSpaceChar x = false) : pyStrip w ≠ [] := by
  intro h
  have hws := pyStrip_eq_nil h x hx
  rw [hws] at hs
  exact absurd hs (by decide)

/-- Every chunk that `chunk_text` emits has nonempty (stripped) content. -/
theorem chunkLoop_content_ne_nil {cs ov : Int} {t : List Char} :
    ∀ (fuel : Nat) (s : Int) (idx : Nat) (l : List Chunk),
      chunkLoopF cs ov t fuel s idx = some l →
      ∀ c ∈ l, c.content ≠ [] := by
  intro fuel
  induction fuel with
  | zero =>
    intro s idx l hrun c hc
    rw [chunkLoopF] at hrun
    by_cases hs : s < (t.length : Int)
    · rw [if_pos hs] at hrun; exact absurd hrun (by simp)
    · rw [if_neg hs, Option.some.injEq] at hrun
      rw [← hrun] at hc
      exact absurd hc (List.not_mem_nil c)
  | succ f ih =>
    intro s idx l hrun c hc
    by_cases hs : s < (t.length : Int)
    · rw [chunkLoopF, if_pos hs] at hrun
      by_cases hemp : (pyStrip (pySlice t s (chunkEnd cs t s))).isEmpty = true
      · have hiter : chunkIter cs ov t s idx =
            (none, if chunkEnd cs t s < (t.length : Int)
              then chunkEnd cs t s - ov else chunkEnd cs t s) := by
          simp only [chunkIter]
          rw [if_pos hemp]
        rw [hiter] at hrun
        exact ih _ _ _ hrun c hc
      · have hiter : chunkIter cs ov t s idx =
            (some ⟨pyStrip (pySlice t s (chunkEnd cs t s)), idx, s, chunkEnd cs t s⟩,
              if chunkEnd cs t s < (t.length : Int)
              then chunkEnd cs t s - ov else chunkEnd cs t s) := by
          simp only [chunkIter]
          rw [if_neg hemp]
        rw [hiter] at hrun
        have hrun' : (chunkLoopF cs ov t f _ (idx + 1)).map
            (fun rest => (⟨pyStrip (pySlice t s (chunkEnd cs t s)), idx, s,
              chunkEnd cs t s⟩ : Chunk) :: rest) = some l := hrun
        rw [Option.map_eq_some'] at hrun'
        rcases hrun' with ⟨rest, hrest, hl⟩
        rw [← hl] at hc
        rcases List.mem_cons.mp hc with h1 | h2
        · rw [h1]
          intro hnil
          apply hemp
          rw [List.isEmpty_iff]
          exact hnil
        · exact ih _ _ _ hrest c h2
    · rw [chunkLoopF, if_neg hs, Option.some.injEq] at hrun
      rw [← hrun] at hc
      exact absurd hc (List.not_mem_nil c)

/-- With `chunk_size ≥ 2`, a window starting at a nonnegative cursor
inside a cleaned text always contains a non-whitespace character, so the
stripped chunk is never dropped. -/
theorem chunk_window_not_dropped {cs : Int} {t : List Char} (hcs : 2 ≤ cs)
    (hcl : Cleaned t) {s : Int} (h0 : 0 ≤ s) (hs : s < (t.length : Int)) :
    ¬ (pyStrip (pySlice t s (chunkEnd cs t s))).isEmpty = true := by
  set e := chunkEnd cs t s with hedef
  have hgt : s < e := chunkEnd_gt (by omega) t s
  rw [List.isEmpty_iff]
  by_cases he0 : s + cs < (t.length : Int)
  · have heLen : e ≤ (t.length : Int) := by
      rw [hedef]; unfold chunkEnd
      rw [if_pos he0]
      by_cases hsnap : pyRfind t ' ' s (s + cs) > s
      · rw [if_pos hsnap]
        have hne2 : pyRfind t ' ' s (s + cs) ≠ -1 := by omega
        have hspec := pyRfind_spec t ' ' s (s + cs) hne2
        have hpy : pyIdx t.length (s + cs) = (s + cs).toNat :=
          pyIdx_of_nonneg (by omega) (by omega)
        omega
      · rw [if_neg hsnap]; omega
    cases hx0 : t.get? s.toNat with
    | none => rw [List.get?_eq_none] at hx0; omega
    | some x0 =>
      by_cases hx0sp : x0 = ' '
      · have hge2 : s + 2 ≤ e := by
          rw [hedef]; unfold chunkEnd
          rw [if_pos he0]
          by_cases hsnap : pyRfind t ' ' s (s + cs) > s
          · rw [if_pos hsnap]
            have hne2 : pyRfind t ' ' s (s + cs) ≠ -1 := by omega
            have hspec := pyRfind_spec t ' ' s (s + cs) hne2
            by_contra hlt
            have hr1 : (pyRfind t ' ' s (s + cs)).toNat = s.toNat + 1 := by
              omega
            exact noAdjSpaces_get hcl.2.1 (hx0sp ▸ hx0) (hr1 ▸ hspec.2.2.2)
          · rw [if_neg hsnap]; omega
        cases hx1 : t.get? (s.toNat + 1) with
        | none => rw [List.get?_eq_none] at hx1; omega
        | some x1 =>
          have hx1ne : x1 ≠ ' ' := by
            intro h
            exact noAdjSpaces_get hcl.2.1 (hx0sp ▸ hx0) (h ▸ hx1)
          have hx1ns : isSpaceChar x1 = false := by
            by_cases hws : isSpaceChar x1
            · exact absurd (hcl.1 x1 (List.get?_mem hx1) hws) hx1ne
            · simpa using hws
          apply pyStrip_ne_nil_of_mem (x := x1) ?_ hx1ns
          apply mem_pySlice_of_get? ?_ ?_ hx1
          · rw [pyIdx_of_nonneg h0 (by omega)]; omega
          · rw [pyIdx_of_nonneg (by omega) heLen]; omega
      · have hx0ns : isSpaceChar x0 = false := by
          by_cases hws : isSpaceChar x0
          · exact absurd (hcl.1 x0 (List.get?_mem hx0) hws) hx0sp
          · simpa using hws
        apply pyStrip_ne_nil_of_mem (x := x0) ?_ hx0ns
        apply mem_pySlice_of_get? ?_ ?_ hx0
        · rw [pyIdx_of_nonneg h0 (by omega)]
        · rw [pyIdx_of_nonneg (by omega) heLen]; omega
  · have hEnd2 : e = s + cs := by
      rw [hedef]; unfold chunkEnd; rw [if_neg he0]
    rw [hEnd2, pySlice_of_ge_length h0 (by omega) (by omega)]
    have hdne : t.drop s.toNat ≠ [] := by
      intro hdrop
      have := List.drop_eq_nil_iff_le.mp hdrop
      omega
    apply pyStrip_ne_nil_of_getLast hdne
    · intro c hc2
      exact hcl.1 c (List.drop_subset _ _ hc2)
    · rw [getLast?_drop_of_ne_nil hdne]
      exact hcl.2.2.2


/-- With `chunk_overlap = 0` and `chunk_size ≥ 2`, no window is ever
dropped and consecutive windows tile the cleaned text, so every position
of the cleaned text is covered by some emitted chunk's
`[start_char, end_char)` range. -/
theorem chunkLoop_coverage {cs : Int} {t : List Char} (hcs : 2 ≤ cs)
    (hcl : Cleaned t) :
    ∀ (fuel : Nat) (s : Int) (idx : Nat) (l : List Chunk), 0 ≤ s →
      chunkLoopF cs 0 t fuel s idx = some l →
      ∀ p : Nat, s ≤ (p : Int) → p < t.length →
        ∃ c ∈ l, c.start_char ≤ (p : Int) ∧ (p : Int) < c.end_char := by
  intro fuel
  induction fuel with
  | zero =>
    intro s idx l h0 hrun p hp1 hp2
    rw [chunkLoopF] at hrun
    by_cases hs : s < (t.length : Int)
    · rw [if_pos hs] at hrun; exact absurd hrun (by simp)
    · omega
  | succ f ih =>
    intro s idx l h0 hrun p hp1 hp2
    by_cases hs : s < (t.length : Int)
    case neg => omega
    case pos =>
    rw [chunkLoopF, if_pos hs] at hrun
    set e := chunkEnd cs t s with hedef
    have hgt : s < e := chunkEnd_gt (by omega) t s
    have hemitted : ¬ (pyStrip (pySlice t s e)).isEmpty = true := by
      rw [hedef]
      exact chunk_window_not_dropped hcs hcl h0 hs
    have hiter : chunkIter cs 0 t s idx =
        (some ⟨pyStrip (pySlice t s e), idx, s, e⟩, e) := by
      simp only [chunkIter]
      rw [if_neg hemitted]
      by_cases he : e < (t.length : Int)
      · rw [if_pos he, sub_zero]
      · rw [if_neg he]
    rw [hiter] at hrun
    have hrun' : (chunkLoopF cs 0 t f e (idx + 1)).map
        (fun rest => (⟨pyStrip (pySlice t s e), idx, s, e⟩ : Chunk) :: rest)
        = some l := hrun
    rw [Option.map_eq_some'] at hrun'
    rcases hrun' with ⟨rest, hrest, hl⟩
    by_cases hpe : (p : Int) < e
    · refine ⟨⟨pyStrip (pySlice t s e), idx, s, e⟩, ?_, hp1, hpe⟩
      rw [← hl]
      exact List.mem_cons_self _ _
    · rcases ih e (idx + 1) rest (by omega) hrest p (by omega) hp2 with ⟨c, hcmem, hcov⟩
      refine ⟨c, ?_, hcov⟩
      rw [← hl]
      exact List.mem_cons_of_mem _ hcmem

/-- Claim C5 (corrected): in any finished `chunk_text` run with valid
parameters, no emitted chunk has empty content after trimming
(unconditionally); and when `chunk_overlap = 0` and `chunk_size ≥ 2` the
`[start_char, end_char)` ranges of the emitted chunks cover every
position of the cleaned text.  (The original unconditional coverage
claim is refuted by `C5_counterexample`: a dropped all-space window
leaves its position uncovered.) -/
theorem C5_coverage_and_nonempty (text : List Char) (cs ov : Int)
    (fuel : Nat) (l : List Chunk) (hcs : 0 < cs) (hov : 0 ≤ ov)
    (hoc : ov < cs) (hrun : chunkText cs ov text fuel = some l) :
    (∀ c ∈ l, c.content ≠ []) ∧
    (ov = 0 → 2 ≤ cs → ∀ p : Nat, p < (cleanText text).length →
      ∃ c ∈ l, c.start_char ≤ (p : Int) ∧ (p : Int) < c.end_char) := by
  unfold chunkText at hrun
  constructor
  · exact chunkLoop_content_ne_nil fuel 0 0 l hrun
  · intro hov0 hcs2 p hp
    subst hov0
    exact chunkLoop_coverage hcs2 (cleanText_cleaned text) fuel 0 0 l le_rfl
      hrun p (by omega) hp

/-- Witness for C5 on `"ab cd ef"` with `chunk_size = 3`,
`chunk_overlap = 0`. -/
theorem C5_coverage_and_nonempty_witness :
    (chunkText 3 0 "ab cd ef".toList 9 =
      some [⟨"ab".toList, 0, 0, 2⟩, ⟨"cd".toList, 1, 2, 5⟩, ⟨"ef".toList, 2, 5, 8⟩]) ∧
    ((∀ c ∈ ([⟨"ab".toList, 0, 0, 2⟩, ⟨"cd".toList, 1, 2, 5⟩,
        ⟨"ef".toList, 2, 5, 8⟩] : List Chunk), c.content ≠ []) ∧
      ((0 : Int) = 0 → 2 ≤ (3 : Int) → ∀ p : Nat, p < (cleanText "ab cd ef".toList).length →
        ∃ c ∈ ([⟨"ab".toList, 0, 0, 2⟩, ⟨"cd".toList, 1, 2, 5⟩,
          ⟨"ef".toList, 2, 5, 8⟩] : List Chunk),
          c.start_char ≤ (p : Int) ∧ (p : Int) < c.end_char)) :=
  ⟨by decide,
    C5_coverage_and_nonempty "ab cd ef".toList 3 0 9
      [⟨"ab".toList, 0, 0, 2⟩, ⟨"cd".toList, 1, 2, 5⟩, ⟨"ef".toList, 2, 5, 8⟩]
      (by decide) (by decide) (by decide) (by decide)⟩

/-- Counterexample to C5 as stated: with text `"a b"`, `chunk_size = 1 > 0`
and `chunk_overlap = 0 < chunk_size` (valid parameters per the claim),
the cleaned text has length 3 but position 1 (the space, whose window was
dropped as empty-after-trim) is covered by no emitted chunk. -/
theorem C5_counterexample :
    (0 : Int) < 1 ∧ (0 : Int) ≤ 0 ∧ (0 : Int) < 1 ∧
    (cleanText "a b".toList).length = 3 ∧
    chunkText 1 0 "a b".toList 5 =
      some [⟨"a".toList, 0, 0, 1⟩, ⟨"b".toList, 1, 2, 3⟩] ∧
    (([⟨"a".toList, 0, 0, 1⟩, ⟨"b".toList, 1, 2, 3⟩] : List Chunk).all
      (fun c => !(decide (c.start_char ≤ (1 : Int)) &&
        decide ((1 : Int) < c.end_char)))) = true := by
  decide

/-! ## Claim C7 — overlap arithmetic between consecutive chunks -/

/-- With `chunk_overlap = 0` and `chunk_size ≥ 2`, the first chunk of a
finished run starts exactly at the current cursor. -/
theorem chunkLoop_head_start {cs : Int} {t : List Char} (hcs : 2 ≤ cs)
    (hcl : Cleaned t) :
    ∀ (fuel : Nat) (s : Int) (idx : Nat) (l : List Chunk), 0 ≤ s →
      chunkLoopF cs 0 t fuel s idx = some l → l ≠ [] →
      (l.getD 0 default).start_char = s := by
  intro fuel s idx l h0 hrun hne
  by_cases hs : s < (t.length : Int)
  · cases fuel with
    | zero =>
      rw [chunkLoopF, if_pos hs] at hrun
      exact absurd hrun (by simp)
    | succ f =>
      rw [chunkLoopF, if_pos hs] at hrun
      have hemitted := chunk_window_not_dropped hcs hcl h0 hs
      have hiter : chunkIter cs 0 t s idx =
          (some ⟨pyStrip (pySlice t s (chunkEnd cs t s)), idx, s, chunkEnd cs t s⟩,
            if chunkEnd cs t s < (t.length : Int)
            then chunkEnd cs t s - 0 else chunkEnd cs t s) := by
        simp only [chunkIter]
        rw [if_neg hemitted]
      rw [hiter] at hrun
      have hrun' : (chunkLoopF cs 0 t f _ (idx + 1)).map
          (fun rest => (⟨pyStrip (pySlice t s (chunkEnd cs t s)), idx, s,
            chunkEnd cs t s⟩ : Chunk) :: rest) = some l := hrun
      rw [Option.map_eq_some'] at hrun'
      rcases hrun' with ⟨rest, _, hl⟩
      rw [← hl]
      rfl
  · rw [chunkLoopF_stop hs fuel idx, Option.some.injEq] at hrun
    exact absurd hrun.symm hne

/-- With `chunk_overlap = 0` and `chunk_size ≥ 2`, consecutive chunks of
a finished run tile exactly: `start_char[i+1] = end_char[i]`. -/
theorem chunkLoop_adjacent {cs : Int} {t : List Char} (hcs : 2 ≤ cs)
    (hcl : Cleaned t) :
    ∀ (fuel : Nat) (s : Int) (idx : Nat) (l : List Chunk), 0 ≤ s →
      chunkLoopF cs 0 t fuel s idx = some l →
      ∀ i : Nat, i + 1 < l.length →
        (l.getD i default).end_char - (l.getD (i + 1) default).start_char = 0 := by
  intro fuel
  induction fuel with
  | zero =>
    intro s idx l h0 hrun i hi
    rw [chunkLoopF] at hrun
    by_cases hs : s < (t.length : Int)
    · rw [if_pos hs] at hrun; exact absurd hrun (by simp)
    · rw [if_neg hs, Option.some.injEq] at hrun
      rw [← hrun] at hi
      simp at hi
  | succ f ih =>
    intro s idx l h0 hrun i hi
    by_cases hs : s < (t.length : Int)
    · rw [chunkLoopF, if_pos hs] at hrun
      have hemitted := chunk_window_not_dropped hcs hcl h0 hs
      set e := chunkEnd cs t s with hedef
      have hgt : s < e := chunkEnd_gt (by omega) t s
      have hiter : chunkIter cs 0 t s idx =
          (some ⟨pyStrip (pySlice t s e), idx, s, e⟩, e) := by
        simp only [chunkIter]
        rw [if_neg (hedef ▸ hemitted)]
        by_cases he : e < (t.length : Int)
        · rw [if_pos he, sub_zero]
        · rw [if_neg he]
      rw [hiter] at hrun
      have hrun' : (chunkLoopF cs 0 t f e (idx + 1)).map
          (fun rest => (⟨pyStrip (pySlice t s e), idx, s, e⟩ : Chunk) :: rest)
          = some l := hrun
      rw [Option.map_eq_some'] at hrun'
      rcases hrun' with ⟨rest, hrest, hl⟩
      cases i with
      | zero =>
        rw [← hl] at hi ⊢
        rw [List.length_cons] at hi
        have hrne : rest ≠ [] := by
          intro h
          rw [h] at hi
          simp at hi
        have hhead := chunkLoop_head_start hcs hcl f e (idx + 1) rest
          (by omega) hrest hrne
        rw [List.getD_cons_succ, List.getD_cons_zero, hhead]
        show e - e = 0
        omega
      | succ i2 =>
        rw [← hl] at hi ⊢
        rw [List.length_cons] at hi
        rw [List.getD_cons_succ, List.getD_cons_succ]
        exact ih e (idx + 1) rest (by omega) hrest i2 (by omega)
    · rw [chunkLoopF, if_neg hs, Option.some.injEq] at hrun
      rw [← hrun] at hi
      simp at hi

/-- Claim C7 (corrected): the exact-overlap law
`end_char[i] - start_char[i+1] = chunk_overlap` for consecutive chunks
(chunk `i` non-final) holds whenever no intervening window is dropped;
we prove it for `chunk_overlap = 0` and `chunk_size ≥ 2`, where no
window is ever dropped.  In general a dropped all-space window between
two emitted chunks breaks the equality (`C7_counterexample`). -/
theorem C7_consecutive_overlap (text : List Char) (cs ov : Int)
    (fuel : Nat) (l : List Chunk) (hcs : 0 < cs) (hov : 0 ≤ ov)
    (hoc : ov < cs) (hov0 : ov = 0) (hcs2 : 2 ≤ cs)
    (hrun : chunkText cs ov text fuel = some l) :
    ∀ i : Nat, i + 1 < l.length →
      (l.getD i default).end_char - (l.getD (i + 1) default).start_char = ov := by
  intro i hi
  subst hov0
  unfold chunkText at hrun
  exact chunkLoop_adjacent hcs2 (cleanText_cleaned text) fuel 0 0 l le_rfl hrun i hi

/-- Witness for C7 on `"ab cd ef"` with `chunk_size = 3`,
`chunk_overlap = 0`. -/
theorem C7_consecutive_overlap_witness :
    (chunkText 3 0 "ab cd ef".toList 9 =
      some [⟨"ab".toList, 0, 0, 2⟩, ⟨"cd".toList, 1, 2, 5⟩, ⟨"ef".toList, 2, 5, 8⟩]) ∧
    (∀ i : Nat, i + 1 < ([⟨"ab".toList, 0, 0, 2⟩, ⟨"cd".toList, 1, 2, 5⟩,
        ⟨"ef".toList, 2, 5, 8⟩] : List Chunk).length →
      (([⟨"ab".toList, 0, 0, 2⟩, ⟨"cd".toList, 1, 2, 5⟩,
        ⟨"ef".toList, 2, 5, 8⟩] : List Chunk).getD i default).end_char -
        (([⟨"ab".toList, 0, 0, 2⟩, ⟨"cd".toList, 1, 2, 5⟩,
          ⟨"ef".toList, 2, 5, 8⟩] : List Chunk).getD (i + 1) default).start_char
        = 0) :=
  ⟨by decide,
    C7_consecutive_overlap "ab cd ef".toList 3 0 9
      [⟨"ab".toList, 0, 0, 2⟩, ⟨"cd".toList, 1, 2, 5⟩, ⟨"ef".toList, 2, 5, 8⟩]
      (by decide) (by decide) (by decide) rfl (by decide) (by decide)⟩

/-- Counterexample to C7 as stated: text `"a b"` with `chunk_size = 1`,
`chunk_overlap = 0` (valid parameters).  The first chunk `"a"` is
non-final (`end_char = 1`), the next emitted chunk `"b"` starts at 2
(the all-space window `[1, 2)` in between was dropped), so
`end_char[0] - start_char[1] = -1 ≠ 0 = chunk_overlap`. -/
theorem C7_counterexample :
    (0 : Int) < 1 ∧ (0 : Int) ≤ 0 ∧ (0 : Int) < 1 ∧
    chunkText 1 0 "a b".toList 5 =
      some [⟨"a".toList, 0, 0, 1⟩, ⟨"b".toList, 1, 2, 3⟩] ∧
    0 + 1 < ([⟨"a".toList, 0, 0, 1⟩, ⟨"b".toList, 1, 2, 3⟩] : List Chunk).length ∧
    (([⟨"a".toList, 0, 0, 1⟩, ⟨"b".toList, 1, 2, 3⟩] : List Chunk).getD 0
        default).end_char -
      (([⟨"a".toList, 0, 0, 1⟩, ⟨"b".toList, 1, 2, 3⟩] : List Chunk).getD 1
        default).start_char ≠ 0 := by
  decide

/-! ## `SimpleVectorStore`

Vectors live in `List ℝ` (modelling float64 rows), documents are strings
and metadata entries are JSON-object-like association lists.  The three
parallel sequences of `SimpleVectorStore` become the three fields of
`Store`. -/

/-- A JSON-object-like metadata mapping. -/
abbrev Metadata := List (String × String)

structure Store where
  vectors : List (List ℝ)
  documents : List String
  metadata : List Metadata

/-- The in-memory state right after `__init__` (before `load`). -/
def emptyStore : Store := ⟨[], [], []⟩

/-- `SimpleVectorStore.add`: default metadata is one empty mapping per
document; vectors are `vstack`-appended (assigned directly when the
store is empty), documents and metadata are `extend`-appended. -/
def addStore (s : Store) (vectors : List (List ℝ)) (documents : List String)
    (metadata : Option (List Metadata)) : Store :=
  let m := match metadata with
    | none => documents.map (fun _ => ([] : Metadata))
    | some m0 => m0
  { vectors := if s.vectors.length = 0 then vectors else s.vectors ++ vectors,
    documents := s.documents ++ documents,
    metadata := s.metadata ++ m }

/-- `np.dot` of two rows. -/
noncomputable def dotList (v q : List ℝ) : ℝ := (List.zipWith (fun a b => a * b) v q).sum

/-- `np.linalg.norm` of a row. -/
noncomputable def normList (v : List ℝ) : ℝ := Real.sqrt ((v.map (fun x => x ^ 2)).sum)

/-- The per-row cosine score computed by `search`:
`dot(v, q) / (‖v‖ · ‖q‖ + 1e-10)`. -/
noncomputable def cosineScore (v q : List ℝ) : ℝ :=
  dotList v q / (normList v * normList q + 1 / 10 ^ 10)

/-- `cosine_similarities` as computed by `search` over all stored rows. -/
noncomputable def cosineSimilarities (vectors : List (List ℝ)) (q : List ℝ) : List ℝ :=
  vectors.map (fun v => cosineScore v q)

/-- The comparison `np.argsort` sorts indices by: score at `i` is at
most score at `j`. -/
def simOrder (xs : List ℝ) : Nat → Nat → Prop :=
  fun i j => xs.getD i 0 ≤ xs.getD j 0

noncomputable instance (xs : List ℝ) : DecidableRel (simOrder xs) :=
  fun i j => inferInstanceAs (Decidable (xs.getD i 0 ≤ xs.getD j 0))

instance (xs : List ℝ) : IsTotal Nat (simOrder xs) :=
  ⟨fun _ _ => le_total _ _⟩

instance (xs : List ℝ) : IsTrans Nat (simOrder xs) :=
  ⟨fun _ _ _ h1 h2 => le_trans h1 h2⟩

/-- `np.argsort`: the indices `0, …, n-1` sorted so that the scores are
ascending (modelled with a stable insertion sort; the claim only relies
on it being an ascending sort of the indices). -/
noncomputable def argsortAsc (xs : List ℝ) : List Nat :=
  List.insertionSort (simOrder xs) (List.range xs.length)

/-- Python `a[-k:]` (for `k = 0` this is `a[0:]`, the whole list). -/
def lastSlice {α : Type} (l : List α) (k : Nat) : List α :=
  if k = 0 then l else l.drop (l.length - k)

/-- `SimpleVectorStore.search`: empty store short-circuits to `[]`;
otherwise rank all rows by cosine similarity, take
`np.argsort(sims)[-k:][::-1]` and return `(document, score, metadata)`
triples in that order. -/
noncomputable def searchStore (s : Store) (q : List ℝ) (k : Nat) :
    List (String × ℝ × Metadata) :=
  if s.vectors.length = 0 then []
  else
    let sims := cosineSimilarities s.vectors q
    let top_k_indices := (lastSlice (argsortAsc sims) k).reverse
    top_k_indices.map (fun idx =>
      (s.documents.getD idx "", sims.getD idx 0, s.metadata.getD idx []))

/-! ### `SimpleVectorStore.load`

`load` reads three artifacts only when all three files exist; the three
deserializations then run in sequence inside one `try`, each assigning
its store field on success; any exception is caught, logged
("Starting fresh") and swallowed, with no reset of fields already
assigned. -/

inductive FileState (α : Type) where
  | missing : FileState α
  | corrupt : FileState α
  | good : α → FileState α

def fileExists {α : Type} : FileState α → Bool
  | .missing => false
  | _ => true

/-- Deserializing an artifact: `none` models a raised exception. -/
def parseFile {α : Type} : FileState α → Option α
  | .good v => some v
  | _ => none

structure Artifacts where
  vectorsFile : FileState (List (List ℝ))
  docsFile : FileState (List String)
  metaFile : FileState (List Metadata)

/-- `SimpleVectorStore.load`: sequential field assignment under a
catch-all `except` that only logs. -/
def loadStore (s : Store) (a : Artifacts) : Store :=
  if fileExists a.vectorsFile && fileExists a.docsFile && fileExists a.metaFile then
    match parseFile a.vectorsFile with
    | none => s
    | some vs =>
      match parseFile a.docsFile with
      | none => { s with vectors := vs }
      | some ds =>
        match parseFile a.metaFile with
        | none => { s with vectors := vs, documents := ds }
        | some ms => { vectors := vs, documents := ds, metadata := ms }
  else s

/-! ## Claim C3 — load failure handling -/

/-- Claim C3 (code_bug): the claim says any deserialization failure
leaves the store in the empty "start fresh" state.  The code swallows
the exception but performs no reset, so a failure after `np.load`
succeeded leaves `vectors` updated while `documents` and `metadata` are
not: on a fresh store with a parseable one-row `vectors.npy`, a corrupt
`documents.json` and a parseable `metadata.json`, the resulting state
has one vector row and zero documents — not the empty state, and with
the parallel-array invariant broken. -/
theorem C3_load_failure_not_fresh :
    (loadStore emptyStore ⟨.good [[1]], .corrupt, .good [[]]⟩).vectors.length = 1 ∧
    (loadStore emptyStore ⟨.good [[1]], .corrupt, .good [[]]⟩).documents = [] ∧
    (loadStore emptyStore ⟨.good [[1]], .corrupt, .good [[]]⟩).metadata = [] ∧
    (loadStore emptyStore ⟨.good [[1]], .corrupt, .good [[]]⟩).vectors.length ≠
      (loadStore emptyStore ⟨.good [[1]], .corrupt, .good [[]]⟩).documents.length :=
  ⟨rfl, rfl, rfl, by decide⟩

/-! ## Claim C2 — parallel-array invariant of `add` -/

/-- One call to `add` with its arguments. -/
structure AddCall where
  vectors : List (List ℝ)
  documents : List String
  metadata : Option (List Metadata)

/-- Preconditions of the claim: `len(vectors) == len(documents)` and,
when metadata is supplied, `len(metadata) == len(documents)`. -/
def ValidAdd (c : AddCall) : Prop :=
  c.vectors.length = c.documents.length ∧
  ∀ m, c.metadata = some m → m.length = c.documents.length

def applyAdd (s : Store) (c : AddCall) : Store :=
  addStore s c.vectors c.documents c.metadata

def applyAdds (s : Store) (calls : List AddCall) : Store :=
  calls.foldl applyAdd s

/-- The parallel-array invariant: the three sequences have equal length. -/
def StoreInv (s : Store) : Prop :=
  s.documents.length = s.vectors.length ∧ s.metadata.length = s.vectors.length

theorem applyAdd_appends (s : Store) (c : AddCall) (hc : ValidAdd c) :
    (applyAdd s c).vectors = s.vectors ++ c.vectors ∧
    (applyAdd s c).documents = s.documents ++ c.documents ∧
    ∃ dm : List Metadata, dm.length = c.documents.length ∧
      (applyAdd s c).metadata = s.metadata ++ dm := by
  refine ⟨?_, rfl, ?_⟩
  · show (if s.vectors.length = 0 then c.vectors else s.vectors ++ c.vectors) = _
    by_cases h : s.vectors.length = 0
    · rw [if_pos h, List.length_eq_zero.mp h, List.nil_append]
    · rw [if_neg h]
  · cases hm : c.metadata with
    | none =>
      refine ⟨c.documents.map (fun _ => ([] : Metadata)), by rw [List.length_map], ?_⟩
      show s.metadata ++ (match c.metadata with
        | none => c.documents.map (fun _ => ([] : Metadata))
        | some m0 => m0) = _
      rw [hm]
    | some m0 =>
      refine ⟨m0, hc.2 m0 hm, ?_⟩
      show s.metadata ++ (match c.metadata with
        | none => c.documents.map (fun _ => ([] : Metadata))
        | some m1 => m1) = _
      rw [hm]

theorem applyAdd_inv (s : Store) (c : AddCall) (hs : StoreInv s)
    (hc : ValidAdd c) : StoreInv (applyAdd s c) := by
  rcases applyAdd_appends s c hc with ⟨hv, hd, dm, hdm, hmeta⟩
  constructor
  · rw [hv, hd, List.length_append, List.length_append, hs.1, hc.1]
  · rw [hv, hmeta, List.length_append, List.length_append, hs.2, hdm, hc.1]

/-- Claim C2 (confirmed): across any sequence of valid `add` calls, the
three parallel sequences have equal length after every call, and each
call only appends — the previously stored prefix (vectors, documents and
metadata alike) is preserved verbatim and in order. -/
theorem C2_parallel_arrays_invariant (s : Store) (calls : List AddCall)
    (hs : StoreInv s) (hall : ∀ c ∈ calls, ValidAdd c) :
    (∀ i : Nat, StoreInv (applyAdds s (calls.take i))) ∧
    (∀ i : Nat, ∃ dv dd dm,
      (applyAdds s (calls.take (i + 1))).vectors =
        (applyAdds s (calls.take i)).vectors ++ dv ∧
      (applyAdds s (calls.take (i + 1))).documents =
        (applyAdds s (calls.take i)).documents ++ dd ∧
      (applyAdds s (calls.take (i + 1))).metadata =
        (applyAdds s (calls.take i)).metadata ++ dm) := by
  have hsucc : ∀ i : Nat, applyAdds s (calls.take (i + 1)) =
      match calls.get? i with
      | none => applyAdds s (calls.take i)
      | some c => applyAdd (applyAdds s (calls.take i)) c := by
    intro i
    rw [applyAdds, List.take_succ, List.foldl_append, ← List.get?_eq_getElem?]
    cases hg : calls.get? i with
    | none => rfl
    | some c => rfl
  have hinv : ∀ i : Nat, StoreInv (applyAdds s (calls.take i)) := by
    intro i
    induction i with
    | zero => exact hs
    | succ n ihn =>
      rw [hsucc n]
      cases hg : calls.get? n with
      | none => exact ihn
      | some c =>
        exact applyAdd_inv _ c ihn (hall c (List.get?_mem hg))
  refine ⟨hinv, ?_⟩
  intro i
  rw [hsucc i]
  cases hg : calls.get? i with
  | none =>
    exact ⟨[], [], [], by rw [List.append_nil], by rw [List.append_nil],
      by rw [List.append_nil]⟩
  | some c =>
    rcases applyAdd_appends (applyAdds s (calls.take i)) c
      (hall c (List.get?_mem hg)) with ⟨hv, hd, dm, _, hmeta⟩
    exact ⟨c.vectors, c.documents, dm, hv, hd, hmeta⟩

/-- Witness for C2: two valid `add` calls on the fresh store. -/
theorem C2_parallel_arrays_invariant_witness :
    (StoreInv emptyStore ∧
      ∀ c ∈ [AddCall.mk [[1], [0]] ["a", "b"] none,
        AddCall.mk [[2]] ["c"] (some [[("k", "v")]])], ValidAdd c) ∧
    ((∀ i : Nat, StoreInv (applyAdds emptyStore
        ([AddCall.mk [[1], [0]] ["a", "b"] none,
          AddCall.mk [[2]] ["c"] (some [[("k", "v")]])].take i))) ∧
      (∀ i : Nat, ∃ dv dd dm,
        (applyAdds emptyStore ([AddCall.mk [[1], [0]] ["a", "b"] none,
          AddCall.mk [[2]] ["c"] (some [[("k", "v")]])].take (i + 1))).vectors =
          (applyAdds emptyStore ([AddCall.mk [[1], [0]] ["a", "b"] none,
            AddCall.mk [[2]] ["c"] (some [[("k", "v")]])].take i)).vectors ++ dv ∧
        (applyAdds emptyStore ([AddCall.mk [[1], [0]] ["a", "b"] none,
          AddCall.mk [[2]] ["c"] (some [[("k", "v")]])].take (i + 1))).documents =
          (applyAdds emptyStore ([AddCall.mk [[1], [0]] ["a", "b"] none,
            AddCall.mk [[2]] ["c"] (some [[("k", "v")]])].take i)).documents ++ dd ∧
        (applyAdds emptyStore ([AddCall.mk [[1], [0]] ["a", "b"] none,
          AddCall.mk [[2]] ["c"] (some [[("k", "v")]])].take (i + 1))).metadata =
          (applyAdds emptyStore ([AddCall.mk [[1], [0]] ["a", "b"] none,
            AddCall.mk [[2]] ["c"] (some [[("k", "v")]])].take i)).metadata ++ dm)) := by
  have hpre : StoreInv emptyStore ∧
      ∀ c ∈ [AddCall.mk [[1], [0]] ["a", "b"] none,
        AddCall.mk [[2]] ["c"] (some [[("k", "v")]])], ValidAdd c := by
    refine ⟨⟨rfl, rfl⟩, ?_⟩
    intro c hc
    rcases List.mem_cons.mp hc with h | h
    · rw [h]
      exact ⟨rfl, fun m hm => by cases hm⟩
    · rcases List.mem_cons.mp h with h2 | h2
      · rw [h2]
        refine ⟨rfl, fun m hm => ?_⟩
        rw [Option.some.injEq] at hm
        rw [← hm]
        rfl
      · exact absurd h2 (List.not_mem_nil c)
  exact ⟨hpre, C2_parallel_arrays_invariant emptyStore _ hpre.1 hpre.2⟩

/-! ## Claim C1 — `search` -/

theorem argsortAsc_length (xs : List ℝ) : (argsortAsc xs).length = xs.length := by
  unfold argsortAsc
  rw [List.length_insertionSort, List.length_range]

theorem argsortAsc_sorted (xs : List ℝ) :
    List.Sorted (simOrder xs) (argsortAsc xs) :=
  List.sorted_insertionSort (simOrder xs) (List.range xs.length)

theorem argsortAsc_mem_lt {xs : List ℝ} {i : Nat} (h : i ∈ argsortAsc xs) :
    i < xs.length := by
  unfold argsortAsc at h
  have hperm := List.perm_insertionSort (simOrder xs) (List.range xs.length)
  rw [← List.mem_range]
  exact hperm.mem_iff.mp h

theorem lastSlice_sublist {α : Type} (l : List α) (k : Nat) :
    (lastSlice l k).Sublist l := by
  unfold lastSlice
  by_cases h : k = 0
  · rw [if_pos h]
  · rw [if_neg h]
    exact List.drop_sublist _ _

theorem lastSlice_length {α : Type} (l : List α) (k : Nat) (hk : k ≠ 0) :
    (lastSlice l k).length = min k l.length := by
  unfold lastSlice
  rw [if_neg hk, List.length_drop]
  omega

/-- Claim C1 (confirmed): for any store whose three sequences have equal
length and any `k ≥ 1`, `search` returns exactly `min(k, count)` triples;
their scores are in descending order; every returned triple is
`(documents[i], dot(vᵢ, q) / (‖vᵢ‖·‖q‖ + 1e-10), metadata[i])` for some
stored row `i`; and on the empty store it returns `[]` (no error — the
function is total). -/
theorem C1_search_ranked_topk (s : Store) (q : List ℝ) (k : Nat)
    (hd : s.documents.length = s.vectors.length)
    (hm : s.metadata.length = s.vectors.length) (hk : 1 ≤ k) :
    (searchStore s q k).length = min k s.vectors.length ∧
    List.Sorted (· ≥ ·) ((searchStore s q k).map (fun r => r.2.1)) ∧
    (∀ r ∈ searchStore s q k, ∃ i : Nat, i < s.vectors.length ∧
      r = (s.documents.getD i "",
        dotList (s.vectors.getD i []) q /
          (normList (s.vectors.getD i []) * normList q + 1 / 10 ^ 10),
        s.metadata.getD i [])) ∧
    (s.vectors = [] → searchStore s q k = []) := by
  have hsimlen : (cosineSimilarities s.vectors q).length = s.vectors.length :=
    List.length_map _ _
  by_cases hz : s.vectors.length = 0
  · have hzz : searchStore s q k = [] := by
      simp only [searchStore]
      rw [if_pos hz]
    refine ⟨?_, ?_, ?_, fun _ => hzz⟩
    · rw [hzz, List.length_nil]
      omega
    · rw [hzz]
      exact List.sorted_nil
    · intro r hr
      rw [hzz] at hr
      exact absurd hr (List.not_mem_nil r)
  · have hss : searchStore s q k =
        (lastSlice (argsortAsc (cosineSimilarities s.vectors q)) k).reverse.map
          (fun idx => (s.documents.getD idx "",
            (cosineSimilarities s.vectors q).getD idx 0,
            s.metadata.getD idx [])) := by
      simp only [searchStore]
      rw [if_neg hz]
    refine ⟨?_, ?_, ?_, ?_⟩
    · rw [hss, List.length_map, List.length_reverse,
        lastSlice_length _ _ (by omega), argsortAsc_length, hsimlen]
    · rw [hss, List.map_map]
      have hcomp : ((fun r : String × ℝ × Metadata => r.2.1) ∘
          (fun idx => (s.documents.getD idx "",
            (cosineSimilarities s.vectors q).getD idx 0,
            s.metadata.getD idx []))) =
          fun idx => (cosineSimilarities s.vectors q).getD idx 0 := rfl
      rw [hcomp]
      rw [List.Sorted, List.pairwise_map, List.pairwise_reverse]
      have hsorted : List.Pairwise (simOrder (cosineSimilarities s.vectors q))
          (lastSlice (argsortAsc (cosineSimilarities s.vectors q)) k) :=
        List.Pairwise.sublist (lastSlice_sublist _ _)
          (argsortAsc_sorted (cosineSimilarities s.vectors q))
      exact hsorted.imp (fun h => h)
    · intro r hr
      rw [hss, List.mem_map] at hr
      rcases hr with ⟨idx, hidx, hfr⟩
      rw [List.mem_reverse] at hidx
      have hidx2 : idx ∈ argsortAsc (cosineSimilarities s.vectors q) :=
        (lastSlice_sublist _ _).mem hidx
      have hidx3 : idx < s.vectors.length := by
        have := argsortAsc_mem_lt hidx2
        omega
      refine ⟨idx, hidx3, ?_⟩
      have hscore : (cosineSimilarities s.vectors q).getD idx 0 =
          dotList (s.vectors.getD idx []) q /
            (normList (s.vectors.getD idx []) * normList q + 1 / 10 ^ 10) := by
        rw [List.getD_eq_getD_get?, List.getD_eq_getD_get?]
        show ((s.vectors.map (fun v => cosineScore v q)).get? idx).getD 0 = _
        rw [List.get?_map]
        cases hv : s.vectors.get? idx with
        | none => rw [List.get?_eq_none] at hv; omega
        | some v => rfl
      rw [← hfr]
      show (s.documents.getD idx "",
        (cosineSimilarities s.vectors q).getD idx 0, s.metadata.getD idx []) = _
      rw [hscore]
    · intro h
      exact absurd (by rw [h]; rfl : s.vectors.length = 0) hz

/-- Witness for C1: a two-row store searched with `k = 1`. -/
theorem C1_search_ranked_topk_witness :
    ((Store.mk [[1], [0]] ["a", "b"] [[], []]).documents.length =
        (Store.mk [[1], [0]] ["a", "b"] [[], []]).vectors.length ∧
      (Store.mk [[1], [0]] ["a", "b"] [[], []]).metadata.length =
        (Store.mk [[1], [0]] ["a", "b"] [[], []]).vectors.length ∧ 1 ≤ 1) ∧
    ((searchStore (Store.mk [[1], [0]] ["a", "b"] [[], []]) [1] 1).length =
        min 1 (Store.mk [[1], [0]] ["a", "b"] [[], []]).vectors.length ∧
      List.Sorted (· ≥ ·)
        ((searchStore (Store.mk [[1], [0]] ["a", "b"] [[], []]) [1] 1).map
          (fun r => r.2.1)) ∧
      (∀ r ∈ searchStore (Store.mk [[1], [0]] ["a", "b"] [[], []]) [1] 1,
        ∃ i : Nat, i < (Store.mk [[1], [0]] ["a", "b"] [[], []]).vectors.length ∧
        r = ((Store.mk [[1], [0]] ["a", "b"] [[], []]).documents.getD i "",
          dotList ((Store.mk [[1], [0]] ["a", "b"] [[], []]).vectors.getD i []) [1] /
            (normList ((Store.mk [[1], [0]] ["a", "b"] [[], []]).vectors.getD i []) *
              normList [1] + 1 / 10 ^ 10),
          (Store.mk [[1], [0]] ["a", "b"] [[], []]).metadata.getD i [])) ∧
      ((Store.mk [[1], [0]] ["a", "b"] [[], []]).vectors = [] →
        searchStore (Store.mk [[1], [0]] ["a", "b"] [[], []]) [1] 1 = [])) :=
  ⟨⟨rfl, rfl, le_rfl⟩,
    C1_search_ranked_topk (Store.mk [[1], [0]] ["a", "b"] [[], []]) [1] 1
      rfl rfl le_rfl⟩

/-! ## `RAGAgent` pipeline (`src/agent/graph.py`) and claim C9 -/

structure RetrievedDoc where
  content : String
  score : ℝ
  metadata : Metadata

/-- The fields of `AgentState` exercised by the retrieve stage.  The
accumulated metadata dict is a mapping from keys to values. -/
structure AgentState where
  query : String
  retrieved_docs : List RetrievedDoc
  context : String
  response : String
  metadata : String → Option String

/-- `{**m, k: v}`: Python dict merge, the new key wins. -/
def updateMeta (m : String → Option String) (k v : String) :
    String → Option String :=
  fun key => if key = k then some v else m key

/-- `_retrieve_documents`.  The body of the `try` block up to `search` —
`generate_embedding` followed by `vector_store.search`, either of which
may raise — is abstracted as `raw`; `Except.error` models a raised
exception.  `fmt` is the per-document context formatting
(`"Document i (relevance: score):\n<text>"`).  On success the results
become `retrieved_docs`, the context is the formatted blocks joined by
blank lines, and `retrieval_count` is merged into the metadata; on any
exception the `except` arm returns empty docs, empty context and merges
`retrieval_error` into the metadata instead of re-raising. -/
def retrieveNode (raw : String → Except String (List (String × ℝ × Metadata)))
    (fmt : Nat → RetrievedDoc → String) (st : AgentState) : AgentState :=
  match raw st.query with
  | Except.ok results =>
    let docs := results.map (fun r => RetrievedDoc.mk r.1 r.2.1 r.2.2)
    let context := String.intercalate "\n\n" (docs.enum.map (fun p => fmt p.1 p.2))
    { st with
      retrieved_docs := docs, context := context,
      metadata := updateMeta st.metadata "retrieval_count" (toString docs.length) }
  | Except.error e =>
    { st with
      retrieved_docs := [], context := "",
      metadata := updateMeta st.metadata "retrieval_error" e }

/-- The retrieve node as a pipeline stage: it is total (its internal
`try/except` catches everything), so it always returns `Except.ok`. -/
def retrieveNodeE (raw : String → Except String (List (String × ℝ × Metadata)))
    (fmt : Nat → RetrievedDoc → String) (st : AgentState) :
    Except String AgentState :=
  Except.ok (retrieveNode raw fmt st)

/-- The compiled graph `retrieve → generate → log_state`: stages run in
sequence; a stage returning `Except.error` (an uncaught exception) aborts
the rest of the pipeline. -/
def runPipeline (retrieve generate logState : AgentState → Except String AgentState)
    (st : AgentState) : Except String AgentState :=
  (((Except.ok st).bind retrieve).bind generate).bind logState

/-- Claim C9 (confirmed): if the retrieve stage's embedding/search raises
(`raw st.query = error e`), the pipeline does not abort: the stage
returns normally with an empty retrieved-document list and empty context,
records the error under the `retrieval_error` key of the accumulated
metadata (keeping every other key), and the subsequent stages still
execute — the pipeline run equals `generate` applied to the error-branch
state, then `log_state`. -/
theorem C9_retrieve_failure_nonfatal
    (raw : String → Except String (List (String × ℝ × Metadata)))
    (fmt : Nat → RetrievedDoc → String)
    (g l : AgentState → Except String AgentState) (st : AgentState)
    (e : String) (herr : raw st.query = Except.error e) :
    retrieveNodeE raw fmt st = Except.ok
      { st with
        retrieved_docs := [], context := "",
        metadata := updateMeta st.metadata "retrieval_error" e } ∧
    (retrieveNode raw fmt st).retrieved_docs = [] ∧
    (retrieveNode raw fmt st).context = "" ∧
    (retrieveNode raw fmt st).metadata "retrieval_error" = some e ∧
    (∀ key, key ≠ "retrieval_error" →
      (retrieveNode raw fmt st).metadata key = st.metadata key) ∧
    runPipeline (retrieveNodeE raw fmt) g l st =
      (g { st with
        retrieved_docs := [], context := "",
        metadata := updateMeta st.metadata "retrieval_error" e }).bind l := by
  have hnode : retrieveNode raw fmt st =
      { st with
        retrieved_docs := [], context := "",
        metadata := updateMeta st.metadata "retrieval_error" e } := by
    unfold retrieveNode
    rw [herr]
  refine ⟨?_, ?_, ?_, ?_, ?_, ?_⟩
  · unfold retrieveNodeE
    rw [hnode]
  · rw [hnode]
  · rw [hnode]
  · rw [hnode]
    show updateMeta st.metadata "retrieval_error" e "retrieval_error" = some e
    unfold updateMeta
    rw [if_pos rfl]
  · intro key hkey
    rw [hnode]
    show updateMeta st.metadata "retrieval_error" e key = st.metadata key
    unfold updateMeta
    rw [if_neg hkey]
  · unfold runPipeline retrieveNodeE
    show (g (retrieveNode raw fmt st)).bind l = _
    rw [hnode]

/-- Witness for C9: a failing embedding on a concrete initial state. -/
theorem C9_retrieve_failure_nonfatal_witness :
    ((fun _ : String => (Except.error "boom" :
        Except String (List (String × ℝ × Metadata)))) "q" = Except.error "boom") ∧
    (retrieveNodeE (fun _ => Except.error "boom") (fun _ _ => "")
        (AgentState.mk "q" [] "" "" (fun _ => none)) = Except.ok
      { AgentState.mk "q" [] "" "" (fun _ => none) with
        retrieved_docs := [], context := "",
        metadata := updateMeta (fun _ => none) "retrieval_error" "boom" } ∧
      (retrieveNode (fun _ => Except.error "boom") (fun _ _ => "")
        (AgentState.mk "q" [] "" "" (fun _ => none))).retrieved_docs = [] ∧
      (retrieveNode (fun _ => Except.error "boom") (fun _ _ => "")
        (AgentState.mk "q" [] "" "" (fun _ => none))).context = "" ∧
      (retrieveNode (fun _ => Except.error "boom") (fun _ _ => "")
        (AgentState.mk "q" [] "" "" (fun _ => none))).metadata "retrieval_error" =
        some "boom" ∧
      (∀ key, key ≠ "retrieval_error" →
        (retrieveNode (fun _ => Except.error "boom") (fun _ _ => "")
          (AgentState.mk "q" [] "" "" (fun _ => none))).metadata key =
          (AgentState.mk "q" [] "" "" (fun _ => none)).metadata key) ∧
      runPipeline (retrieveNodeE (fun _ => Except.error "boom") (fun _ _ => ""))
        (fun s => Except.ok s) (fun s => Except.ok s)
        (AgentState.mk "q" [] "" "" (fun _ => none)) =
        ((fun s => (Except.ok s : Except String AgentState))
          { AgentState.mk "q" [] "" "" (fun _ => none) with
            retrieved_docs := [], context := "",
            metadata := updateMeta (fun _ => none) "retrieval_error" "boom" }).bind
          (fun s => Except.ok s)) :=
  ⟨rfl,
    C9_retrieve_failure_nonfatal (fun _ => Except.error "boom") (fun _ _ => "")
      (fun s => Except.ok s) (fun s => Except.ok s)
      (AgentState.mk "q" [] "" "" (fun _ => none)) "boom" rfl⟩
